import Mathlib

/-!
# go-oryx `core/utility.go`: composite binary codec and stream scanner

A shallow embedding of `RandomFill`, `Marshal`, `Marshals`, `Unmarshal`,
`Unmarshals`, `startsWith`, `discardUtil`, `discardUtilAny` and `discardUtilNot`,
with the properties of the repository's specification stated and proved over it.

Modelling conventions.

* A Go `[]byte` is a `List Byte`; the nil slice is `[]`.
* A Go `error` result is an `Option ε` (`none` is the nil error).
* A Go function that may panic returns an `Exec`.
* An interface value (`Marshaler`, `UnmarshalSizer`) is the nil interface, a
  non-nil interface wrapping a nil reference, a non-nil interface wrapping a
  reference to an object (the kinds pointer, map, slice, chan, func), or a
  non-nil interface holding a value of another kind (struct, array, basic
  type), on which `reflect.Value.IsNil` panics.
* Objects are distinct and a method touches only its own receiver: the targets
  of one call are a list of independent states.
* A `bufio.Reader` is the bytes its source still yields, the error the source
  ends with, and the size of the reader's buffer, which bounds `Peek`.
-/

namespace Oryx

/-- A byte. Only equality of bytes is used by the codec and the scanner. -/
abbrev Byte := Nat

/-- Outcome of a Go call that either panics or returns. -/
inductive Exec (α : Type) where
  | panic (msg : String)
  | ret (a : α)
  deriving DecidableEq, Repr

/-! ## `bytes.Buffer` -/

/-- The `bytes.Buffer` of the Go library: contents `buf`, read cursor `off`. -/
structure Buffer where
  buf : List Byte
  off : Nat
  deriving DecidableEq, Repr

/-- The zero value `var b bytes.Buffer`. -/
def Buffer.empty : Buffer := ⟨[], 0⟩

/-- `b.Bytes()`: the unread portion `b.buf[b.off:]`. -/
def Buffer.Bytes (b : Buffer) : List Byte := b.buf.drop b.off

/-- `b.Len()`: `len(b.buf) - b.off`. -/
def Buffer.Len (b : Buffer) : Nat := b.buf.length - b.off

/-- `b.Write(p)`: appends `p` and returns the buffer, `len(p)` and an error of
type `ε` that is always nil. -/
def Buffer.Write (b : Buffer) (ε : Type) (p : List Byte) : Buffer × Nat × Option ε :=
  ({ b with buf := b.buf ++ p }, p.length, none)

/-- `b.Next(n)`: `n` is clamped to `b.Len()`, then `b.buf[b.off : b.off+n]` is
sliced (a panic when `n` is negative) and the cursor moves by `n`. -/
def Buffer.Next (b : Buffer) (n : Int) : Exec (List Byte × Buffer) :=
  let m : Int := b.Len
  let n := if n > m then m else n
  if n < 0 then .panic "slice bounds out of range"
  else .ret (b.Bytes.take n.toNat, { b with off := b.off + n.toNat })

/-! ## `Marshaler`, `Marshal`, `Marshals` -/

/-- A value of interface type `Marshaler`: the nil interface, a wrapped nil
reference (its method runs with a nil receiver and may panic), a reference to an
object, or a value of non-reference kind such as a struct with a value receiver. -/
inductive Marshaler (σ ε : Type) where
  | nil
  | nilRef (MarshalBinary : Exec (Except ε (List Byte)))
  | ref (self : σ) (MarshalBinary : σ → Except ε (List Byte))
  | val (self : σ) (MarshalBinary : σ → Except ε (List Byte))

/-- The Go test `e == nil` on an interface value. -/
def Marshaler.isNilInterface {σ ε : Type} : Marshaler σ ε → Bool
  | .nil => true
  | _ => false

/-- The Go call `reflect.ValueOf(e).IsNil()`: it panics on the zero `Value` of a
nil interface and on a value whose kind is not chan, func, interface, map,
pointer or slice. -/
def Marshaler.IsNil {σ ε : Type} : Marshaler σ ε → Exec Bool
  | .nil => .panic "reflect: call of reflect.Value.IsNil on zero Value"
  | .nilRef _ => .ret true
  | .ref _ _ => .ret false
  | .val _ _ => .panic "reflect: call of reflect.Value.IsNil on struct Value"

/-- The call `o.MarshalBinary()` on a non-nil interface value. -/
def Marshaler.MarshalBinary {σ ε : Type} : Marshaler σ ε → Exec (Except ε (List Byte))
  | .nil => .panic "invalid memory address or nil pointer dereference"
  | .nilRef m => m
  | .ref s m => .ret (m s)
  | .val s m => .ret (m s)

/-- `Marshal(o, b)`: the buffer after the call and the returned error. -/
def Marshal {σ ε : Type} (o : Marshaler σ ε) (b : Option Buffer) : Exec (Buffer × Option ε) :=
  match b with
  | none => .panic "should not be nil."
  | some b =>
    if o.isNilInterface then .panic "should not be nil."
    else
      match o.MarshalBinary with
      | .panic msg => .panic msg
      | .ret (.error err) => .ret (b, some err)
      | .ret (.ok vb) =>
        match b.Write ε vb with
        | (b1, _, some err) => .ret (b1, some err)
        | (b1, _, none) => .ret (b1, none)

/-- The loop of `Marshals` over the remaining arguments, `b` being the local buffer. -/
def Marshals.loop {σ ε : Type} (b : Buffer) : List (Marshaler σ ε) → Exec (List Byte × Option ε)
  | [] => .ret (b.Bytes, none)
  | e :: rest =>
    if e.isNilInterface then Marshals.loop b rest
    else
      match e.IsNil with
      | .panic msg => .panic msg
      | .ret true => Marshals.loop b rest
      | .ret false =>
        match Marshal e (some b) with
        | .panic msg => .panic msg
        | .ret (_, some err) => .ret ([], some err)
        | .ret (b1, none) => Marshals.loop b1 rest

/-- `Marshals(o...)`: the returned `data` and `err`. -/
def Marshals {σ ε : Type} (o : List (Marshaler σ ε)) : Exec (List Byte × Option ε) :=
  Marshals.loop Buffer.empty o

/-! ## `UnmarshalSizer`, `Unmarshal`, `Unmarshals` -/

/-- A value of interface type `UnmarshalSizer`. Through a reference to an
object, `UnmarshalBinary` updates the object (also when it reports an error)
and `Size` reads it. Through a wrapped nil reference the methods run with a nil
receiver and may panic. A target of non-reference kind (a struct with value
receivers) carries the state its methods reach. -/
inductive UnmarshalSizer (σ ε : Type) where
  | nil
  | nilRef (UnmarshalBinary : List Byte → Exec (Option ε)) (Size : Exec Int)
  | ref (self : σ) (UnmarshalBinary : σ → List Byte → σ × Option ε) (Size : σ → Int)
  | val (self : σ) (UnmarshalBinary : σ → List Byte → σ × Option ε) (Size : σ → Int)

/-- The Go test `e == nil` on an interface value. -/
def UnmarshalSizer.isNilInterface {σ ε : Type} : UnmarshalSizer σ ε → Bool
  | .nil => true
  | _ => false

/-- The Go call `reflect.ValueOf(e).IsNil()`: it panics on the zero `Value` of a
nil interface and on a value whose kind is not chan, func, interface, map,
pointer or slice. -/
def UnmarshalSizer.IsNil {σ ε : Type} : UnmarshalSizer σ ε → Exec Bool
  | .nil => .panic "reflect: call of reflect.Value.IsNil on zero Value"
  | .nilRef _ _ => .ret true
  | .ref _ _ _ => .ret false
  | .val _ _ _ => .panic "reflect: call of reflect.Value.IsNil on struct Value"

/-- The call `o.UnmarshalBinary(data)`: the target after the call and the error. -/
def UnmarshalSizer.UnmarshalBinary {σ ε : Type} (o : UnmarshalSizer σ ε) (data : List Byte) :
    Exec (UnmarshalSizer σ ε × Option ε) :=
  match o with
  | .nil => .panic "invalid memory address or nil pointer dereference"
  | .nilRef u sz =>
    match u data with
    | .panic msg => .panic msg
    | .ret err => .ret (.nilRef u sz, err)
  | .ref s u sz => .ret (.ref (u s data).1 u sz, (u s data).2)
  | .val s u sz => .ret (.val (u s data).1 u sz, (u s data).2)

/-- The call `o.Size()`. -/
def UnmarshalSizer.Size {σ ε : Type} : UnmarshalSizer σ ε → Exec Int
  | .nil => .panic "invalid memory address or nil pointer dereference"
  | .nilRef _ sz => sz
  | .ref s _ sz => .ret (sz s)
  | .val s _ sz => .ret (sz s)

/-- The two statements `err = e.UnmarshalBinary(b.Bytes())` and `b.Next(e.Size())`
shared by `Unmarshal` and `Unmarshals`: the target, the buffer and the error after them. -/
def decodeStep {σ ε : Type} (e : UnmarshalSizer σ ε) (b : Buffer) :
    Exec (UnmarshalSizer σ ε × Buffer × Option ε) :=
  match e.UnmarshalBinary b.Bytes with
  | .panic msg => .panic msg
  | .ret (e1, some err) => .ret (e1, b, some err)
  | .ret (e1, none) =>
    match e1.Size with
    | .panic msg => .panic msg
    | .ret n =>
      match b.Next n with
      | .panic msg => .panic msg
      | .ret (_, b1) => .ret (e1, b1, none)

/-- `Unmarshal(o, b)`: the target, the buffer and the returned error after the call. -/
def Unmarshal {σ ε : Type} (o : UnmarshalSizer σ ε) (b : Option Buffer) :
    Exec (UnmarshalSizer σ ε × Buffer × Option ε) :=
  match b with
  | none => .panic "should not be nil"
  | some b =>
    if o.isNilInterface then .panic "should not be nil"
    else decodeStep o b

/-- Puts the target of the current iteration back in front of the targets of the
remaining iterations. -/
def Unmarshals.keep {σ ε : Type} (e : UnmarshalSizer σ ε) :
    Exec (Buffer × List (UnmarshalSizer σ ε) × Option ε) →
    Exec (Buffer × List (UnmarshalSizer σ ε) × Option ε)
  | .panic msg => .panic msg
  | .ret (b, rest, err) => .ret (b, e :: rest, err)

/-- `Unmarshals(b, o...)` on a non-nil buffer: the buffer, the targets (in
argument order) and the returned error after the call. -/
def Unmarshals {σ ε : Type} (b : Buffer) :
    List (UnmarshalSizer σ ε) → Exec (Buffer × List (UnmarshalSizer σ ε) × Option ε)
  | [] => .ret (b, [], none)
  | e :: rest =>
    if b.Len = 0 then .ret (b, e :: rest, none)
    else if e.isNilInterface then Unmarshals.keep e (Unmarshals b rest)
    else
      match e.IsNil with
      | .panic msg => .panic msg
      | .ret true => Unmarshals.keep e (Unmarshals b rest)
      | .ret false =>
        match decodeStep e b with
        | .panic msg => .panic msg
        | .ret (e1, b1, some err) => .ret (b1, e1 :: rest, some err)
        | .ret (e1, b1, none) => Unmarshals.keep e1 (Unmarshals b1 rest)

/-! ## `bufio.Reader`, `startsWith`, `discardUtil` -/

/-- A `bufio.Reader` over a finite source: the bytes not yet consumed, the error
the source reports once they are exhausted, the size of the reader's buffer
(`len(b.buf)`, at least `minReadBufferSize = 16`) and the error value
`bufio.ErrBufferFull`. -/
structure Reader (ε : Type) where
  unread : List Byte
  err : ε
  size : Nat
  full : ε
  size_ge : 16 ≤ size
  deriving DecidableEq, Repr

/-- `r.Peek(n)`: the next `n` bytes without advancing. A request larger than the
buffer returns what the buffer can hold and `ErrBufferFull`; with fewer than `n`
bytes left, the bytes that are left and the source's error. -/
def Reader.Peek {ε : Type} (r : Reader ε) (n : Nat) : List Byte × Option ε :=
  if n > r.size then (r.unread.take r.size, some r.full)
  else if n ≤ r.unread.length then (r.unread.take n, none)
  else (r.unread, some r.err)

/-- `r.Discard(n)`: skips the next `n` bytes; with fewer than `n` bytes left,
skips them all and reports the source's error. -/
def Reader.Discard {ε : Type} (r : Reader ε) (n : Nat) : Reader ε × Nat × Option ε :=
  if n ≤ r.unread.length then ({ r with unread := r.unread.drop n }, n, none)
  else ({ r with unread := [] }, r.unread.length, some r.err)

/-- The comparison loop of `startsWith`: `pk[i] != flags[i]` for `i < len(pk)`.
`pk` is never longer than `flags`, `Peek` having returned `len(flags)` bytes. -/
def startsWith.loop : List Byte → List Byte → Bool
  | [], _ => true
  | _ :: _, [] => false
  | p :: pk, f :: flags => if p ≠ f then false else startsWith.loop pk flags

/-- `startsWith(r, flags...)`: the reader after the call, `match` and `err`. -/
def startsWith {ε : Type} (r : Reader ε) (flags : List Byte) : Reader ε × Bool × Option ε :=
  match r.Peek flags.length with
  | (_, some err) => (r, false, some err)
  | (pk, none) => (r, startsWith.loop pk flags, none)

/-- `discardUtil(r, flags...)`, its `for` loop run for at most `fuel` iterations:
the reader after the call and `err`, or `none` when the iterations are used up. -/
def discardUtil {ε : Type} (flags : List Byte) : Nat → Reader ε → Option (Reader ε × Option ε)
  | 0, _ => none
  | fuel + 1, r =>
    match startsWith r flags with
    | (r1, _, some err) => some (r1, some err)
    | (r1, true, none) => some (r1, none)
    | (r1, false, none) =>
      match r1.Discard 1 with
      | (r2, _, some err) => some (r2, some err)
      | (r2, _, none) => discardUtil flags fuel r2

/-- The inner loop of `discardUtilAny` over `flags`: whether `pk[0] == v` for some
`v`, the function then returning. `pk[0]` is in range, `Peek(1)` having returned one byte. -/
def discardUtilAny.loop (pk : List Byte) : List Byte → Bool
  | [] => false
  | v :: flags => if pk.head? = some v then true else discardUtilAny.loop pk flags

/-- `discardUtilAny(r, flags...)`, its `for` loop run for at most `fuel` iterations:
the reader after the call and `err`, or `none` when the iterations are used up. -/
def discardUtilAny {ε : Type} (flags : List Byte) :
    Nat → Reader ε → Option (Reader ε × Option ε)
  | 0, _ => none
  | fuel + 1, r =>
    match r.Peek 1 with
    | (_, some err) => some (r, some err)
    | (pk, none) =>
      if discardUtilAny.loop pk flags then some (r, none)
      else
        match r.Discard 1 with
        | (r1, _, some err) => some (r1, some err)
        | (r1, _, none) => discardUtilAny flags fuel r1

/-- The inner loop of `discardUtilNot` over `flags`: the value of `match` after it.
`pk[0]` is in range, `Peek(1)` having returned one byte. -/
def discardUtilNot.loop (pk : List Byte) : List Byte → Bool
  | [] => false
  | v :: flags => if pk.head? = some v then true else discardUtilNot.loop pk flags

/-- `discardUtilNot(r, flags...)`, its `for` loop run for at most `fuel` iterations:
the reader after the call and `err`, or `none` when the iterations are used up. -/
def discardUtilNot {ε : Type} (flags : List Byte) :
    Nat → Reader ε → Option (Reader ε × Option ε)
  | 0, _ => none
  | fuel + 1, r =>
    match r.Peek 1 with
    | (_, some err) => some (r, some err)
    | (pk, none) =>
      if !discardUtilNot.loop pk flags then some (r, none)
      else
        match r.Discard 1 with
        | (r1, _, some err) => some (r1, some err)
        | (r1, _, none) => discardUtilNot flags fuel r1

/-! ## `RandomFill` -/

/-- The conversion `byte(x)` of a Go `int`: its low eight bits. -/
def toByte (x : Int) : Byte := (x % 256).toNat

/-- The loop of `RandomFill` from index `i` on, over the bytes of `b` from that
index. `random k` is the result of the `k`-th call of `random.Int()` on the
generator taken from the pool; `%` on Go integers truncates toward zero. -/
def RandomFill.loop (random : Nat → Int) : Nat → List Byte → List Byte
  | _, [] => []
  | i, _ :: rest =>
    toByte (0x0f + (random i).tmod (256 - 0x0f - 0x0f)) :: RandomFill.loop random (i + 1) rest

/-- `RandomFill(b)`: the slice after the call. -/
def RandomFill (random : Nat → Int) (b : List Byte) : List Byte :=
  RandomFill.loop random 0 b

/-! ## Vocabulary of the specification for the encoder -/

/-- An absent entry: the nil interface, or a non-nil interface wrapping a nil reference. -/
def Marshaler.absent {σ ε : Type} : Marshaler σ ε → Bool
  | .nil => true
  | .nilRef _ => true
  | .ref _ _ => false
  | .val _ _ => false

/-- A present value of non-reference kind (struct, array, basic type). -/
def Marshaler.byValue {σ ε : Type} : Marshaler σ ε → Bool
  | .val _ _ => true
  | _ => false

/-- The `MarshalBinary` output of a non-absent value that serializes successfully. -/
def Marshaler.output {σ ε : Type} : Marshaler σ ε → Option (List Byte)
  | .ref s m =>
    match m s with
    | .ok vb => some vb
    | .error _ => none
  | .val s m =>
    match m s with
    | .ok vb => some vb
    | .error _ => none
  | _ => none

/-- The error of a non-absent value that fails to serialize. -/
def Marshaler.failure {σ ε : Type} : Marshaler σ ε → Option ε
  | .ref s m =>
    match m s with
    | .ok _ => none
    | .error err => some err
  | .val s m =>
    match m s with
    | .ok _ => none
    | .error err => some err
  | _ => none

/-! ## Vocabulary of the specification for the decoder -/

/-- An absent target: the nil interface, or a non-nil interface wrapping a nil reference. -/
def UnmarshalSizer.absent {σ ε : Type} : UnmarshalSizer σ ε → Bool
  | .nil => true
  | .nilRef _ _ => true
  | .ref _ _ _ => false
  | .val _ _ _ => false

/-- A present target of non-reference kind (struct, array, basic type). -/
def UnmarshalSizer.byValue {σ ε : Type} : UnmarshalSizer σ ε → Bool
  | .val _ _ _ => true
  | _ => false

/-- An Encodable/Decodable pair, both held by reference: a value with its
encoder, and the target that is to receive it, with the decoder and size method
of the target's type. -/
structure Pair (σ ε : Type) where
  value : σ
  MarshalBinary : σ → Except ε (List Byte)
  target : σ
  UnmarshalBinary : σ → List Byte → σ × Option ε
  Size : σ → Int

/-- The value of a pair, as passed to `Marshals`. -/
def Pair.encodable {σ ε : Type} (p : Pair σ ε) : Marshaler σ ε :=
  .ref p.value p.MarshalBinary

/-- The target of a pair, as passed to `Unmarshals`. -/
def Pair.decodable {σ ε : Type} (p : Pair σ ε) : UnmarshalSizer σ ε :=
  .ref p.target p.UnmarshalBinary p.Size

/-- The target of a pair once it holds the pair's value. -/
def Pair.decoded {σ ε : Type} (p : Pair σ ε) : UnmarshalSizer σ ε :=
  .ref p.value p.UnmarshalBinary p.Size

/-- The encoding of the value of a pair (empty when the encoder fails). -/
def Pair.encoding {σ ε : Type} (p : Pair σ ε) : List Byte :=
  match p.MarshalBinary p.value with
  | .ok vb => vb
  | .error _ => []

/-- The value serializes, and decoding any buffer that starts with the value's
encoding reconstructs the value and reports the encoding's length as `Size()`. -/
def Pair.correct {σ ε : Type} (p : Pair σ ε) : Prop :=
  p.MarshalBinary p.value = .ok p.encoding ∧
  (∀ rest : List Byte, p.UnmarshalBinary p.target (p.encoding ++ rest) = (p.value, none)) ∧
  p.Size p.value = p.encoding.length

/-- `Size()` never reports a negative number, whatever the target holds. -/
def UnmarshalSizer.sizeNonneg {σ ε : Type} : UnmarshalSizer σ ε → Prop
  | .nil => True
  | .nilRef _ sz => ∀ n, sz = .ret n → 0 ≤ n
  | .ref _ _ sz => ∀ s, 0 ≤ sz s
  | .val _ _ sz => ∀ s, 0 ≤ sz s

/-- The outcome of a call of `Unmarshals`, restricted to the non-absent targets. -/
def Unmarshals.present {σ ε : Type} :
    Exec (Buffer × List (UnmarshalSizer σ ε) × Option ε) →
    Exec (Buffer × List (UnmarshalSizer σ ε) × Option ε)
  | .panic msg => .panic msg
  | .ret (b, ts, err) => .ret (b, ts.filter (fun e => !e.absent), err)

/-- The reference loop of the specification (`decode_many`), built from `Unmarshal`
(`decode_one`): the targets are processed in order; it stops without error when
the buffer has no unread bytes, skips an absent target, and otherwise applies
`Unmarshal` to the target and stops at its error. -/
def decodeMany {σ ε : Type} (b : Buffer) :
    List (UnmarshalSizer σ ε) → Exec (Buffer × List (UnmarshalSizer σ ε) × Option ε)
  | [] => .ret (b, [], none)
  | e :: rest =>
    if b.Len = 0 then .ret (b, e :: rest, none)
    else if e.absent then Unmarshals.keep e (decodeMany b rest)
    else
      match Unmarshal e (some b) with
      | .panic msg => .panic msg
      | .ret (e1, b1, some err) => .ret (b1, e1 :: rest, some err)
      | .ret (e1, b1, none) => Unmarshals.keep e1 (decodeMany b1 rest)

/-! ## Concrete values, targets and sources -/

/-- A value whose state is its own encoding. -/
def rawValue (vb : List Byte) : Marshaler (List Byte) String :=
  .ref vb fun s => .ok s

/-- A value whose serialization fails. -/
def badValue (msg : String) : Marshaler (List Byte) String :=
  .ref [] fun _ => .error msg

/-- A wrapped nil reference whose method dereferences its receiver. -/
def nilValue : Marshaler (List Byte) String :=
  .nilRef (.panic "invalid memory address or nil pointer dereference")

/-- The decoder of an `n`-byte field: rejects a shorter input, else stores the first `n` bytes. -/
def fixedDecode (n : Nat) (s : List Byte) (data : List Byte) : List Byte × Option String :=
  if data.length < n then (s, some "short") else (data.take n, none)

/-- A target for an `n`-byte field, currently holding `s`; `Size()` is `n`. -/
def fixedTarget (n : Nat) (s : List Byte) : UnmarshalSizer (List Byte) String :=
  .ref s (fixedDecode n) fun _ => n

/-- A target that accepts any input, stores what it is given and reports `size` as `Size()`. -/
def greedyTarget (size : Int) (s : List Byte) : UnmarshalSizer (List Byte) String :=
  .ref s (fun _ data => (data, none)) fun _ => size

/-- The pair of an `n`-byte field: the value `v` and a target currently holding `t`. -/
def fixedPair (n : Nat) (v t : List Byte) : Pair (List Byte) String :=
  { value := v, MarshalBinary := fun s => .ok s, target := t,
    UnmarshalBinary := fixedDecode n, Size := fun _ => n }

/-- A reader of the default buffer size over a source holding the given bytes
and ending with `"EOF"`. -/
def source (bytes : List Byte) : Reader String :=
  { unread := bytes, err := "EOF", size := 4096, full := "bufio: buffer full",
    size_ge := by decide }

/-- A reader of the minimum buffer size, 16 bytes, over a source holding the given
bytes and ending with `"EOF"`. -/
def smallSource (bytes : List Byte) : Reader String :=
  { unread := bytes, err := "EOF", size := 16, full := "bufio: buffer full",
    size_ge := by decide }

/-- A wrapped nil reference whose `MarshalBinary` accepts a nil receiver and
returns the bytes `vb`. -/
def tolerantNilValue (vb : List Byte) : Marshaler (List Byte) String :=
  .nilRef (.ret (.ok vb))

/-- A wrapped nil reference as a target; its methods dereference their receiver. -/
def nilTarget : UnmarshalSizer (List Byte) String :=
  .nilRef (fun _ => .panic "invalid memory address or nil pointer dereference")
    (.panic "invalid memory address or nil pointer dereference")

/-- A present value of struct kind (a value receiver, as `time.Time` has) that
serializes to `vb`. -/
def structValue (vb : List Byte) : Marshaler (List Byte) String :=
  .val vb fun s => .ok s

/-- A present value of struct kind whose serialization fails. -/
def badStructValue (msg : String) : Marshaler (List Byte) String :=
  .val [] fun _ => .error msg

/-- A present target of struct kind for an `n`-byte field, its state reached
through the struct; `Size()` is `n`. -/
def structTarget (n : Nat) (s : List Byte) : UnmarshalSizer (List Byte) String :=
  .val s (fixedDecode n) fun _ => n

/-- A generator whose `k`-th call of `Int()` returns `1000 * k + 225`. -/
def sampleRandom (k : Nat) : Int := 1000 * k + 225

/-! ## Properties of `Marshal` and `Marshals` -/

theorem Buffer.Bytes_Write (ε : Type) (b : Buffer) (p : List Byte) (h : b.off ≤ b.buf.length) :
    (b.Write ε p).1.Bytes = b.Bytes ++ p := by
  simp [Buffer.Write, Buffer.Bytes, List.drop_append_of_le_length h]

theorem Buffer.off_Write (ε : Type) (b : Buffer) (p : List Byte) (h : b.off ≤ b.buf.length) :
    (b.Write ε p).1.off ≤ (b.Write ε p).1.buf.length := by
  simp [Buffer.Write]; omega

section Encode

variable {σ ε : Type}

theorem Marshals.loop_absent (b : Buffer) (e : Marshaler σ ε) (rest : List (Marshaler σ ε))
    (h : e.absent = true) : Marshals.loop b (e :: rest) = Marshals.loop b rest := by
  cases e <;> simp_all [Marshals.loop, Marshaler.absent, Marshaler.isNilInterface, Marshaler.IsNil]

theorem Marshals.loop_ok (b : Buffer) (s : σ) (m : σ → Except ε (List Byte))
    (rest : List (Marshaler σ ε)) (vb : List Byte) (h : m s = .ok vb) :
    Marshals.loop b (.ref s m :: rest) = Marshals.loop (b.Write ε vb).1 rest := by
  simp [Marshals.loop, Marshaler.isNilInterface, Marshaler.IsNil, Marshal,
    Marshaler.MarshalBinary, h, Buffer.Write]

theorem Marshals.loop_error (b : Buffer) (s : σ) (m : σ → Except ε (List Byte))
    (rest : List (Marshaler σ ε)) (err : ε) (h : m s = .error err) :
    Marshals.loop b (.ref s m :: rest) = .ret ([], some err) := by
  simp [Marshals.loop, Marshaler.isNilInterface, Marshaler.IsNil, Marshal,
    Marshaler.MarshalBinary, h]

theorem Marshals.loop_val (b : Buffer) (s : σ) (m : σ → Except ε (List Byte))
    (rest : List (Marshaler σ ε)) :
    Marshals.loop b (.val s m :: rest)
      = .panic "reflect: call of reflect.Value.IsNil on struct Value" := by
  simp [Marshals.loop, Marshaler.isNilInterface, Marshaler.IsNil]

theorem Marshals.loop_concat (o : List (Marshaler σ ε)) :
    ∀ b : Buffer, b.off ≤ b.buf.length →
      (∀ e ∈ o, e.byValue = false) →
      (∀ e ∈ o, e.absent = false → e.output ≠ none) →
      Marshals.loop b o = .ret (b.Bytes ++ (o.filterMap Marshaler.output).flatten, none) := by
  induction o with
  | nil => intro b _ _ _; simp [Marshals.loop]
  | cons e rest ih =>
    intro b hb hk h
    have hrest : ∀ x ∈ rest, x.absent = false → x.output ≠ none :=
      fun x hx => h x (List.mem_cons_of_mem _ hx)
    have hkrest : ∀ x ∈ rest, x.byValue = false :=
      fun x hx => hk x (List.mem_cons_of_mem _ hx)
    cases e with
    | nil =>
      rw [Marshals.loop_absent b .nil rest rfl, ih b hb hkrest hrest]
      simp [Marshaler.output]
    | nilRef mb =>
      rw [Marshals.loop_absent b (.nilRef mb) rest rfl, ih b hb hkrest hrest]
      simp [Marshaler.output]
    | ref s m =>
      have hs := h (.ref s m) (List.mem_cons_self _ _) rfl
      cases hm : m s with
      | error err => simp [Marshaler.output, hm] at hs
      | ok vb =>
        rw [Marshals.loop_ok b s m rest vb hm, ih _ (Buffer.off_Write ε b vb hb) hkrest hrest,
          Buffer.Bytes_Write ε b vb hb]
        simp [Marshaler.output, hm]
    | val s m =>
      have := hk (.val s m) (List.mem_cons_self _ _)
      simp [Marshaler.byValue] at this

theorem Marshals.loop_filter (o : List (Marshaler σ ε)) :
    ∀ b : Buffer, Marshals.loop b o = Marshals.loop b (o.filter fun e => !e.absent) := by
  induction o with
  | nil => intro b; rfl
  | cons e rest ih =>
    intro b
    cases e with
    | nil => rw [Marshals.loop_absent b .nil rest rfl, ih b]; simp [Marshaler.absent]
    | nilRef mb =>
      rw [Marshals.loop_absent b (.nilRef mb) rest rfl, ih b]; simp [Marshaler.absent]
    | ref s m =>
      have hf : ((Marshaler.ref s m :: rest).filter fun e => !e.absent)
          = Marshaler.ref s m :: rest.filter fun e => !e.absent := by
        simp [Marshaler.absent]
      rw [hf]
      cases hm : m s with
      | error err => rw [Marshals.loop_error b s m _ err hm, Marshals.loop_error b s m _ err hm]
      | ok vb => rw [Marshals.loop_ok b s m _ vb hm, Marshals.loop_ok b s m _ vb hm, ih]
    | val s m =>
      have hf : ((Marshaler.val s m :: rest).filter fun e => !e.absent)
          = Marshaler.val s m :: rest.filter fun e => !e.absent := by
        simp [Marshaler.absent]
      rw [hf, Marshals.loop_val, Marshals.loop_val]

theorem Marshals.loop_first_failure (pre : List (Marshaler σ ε)) :
    ∀ (b : Buffer) (e : Marshaler σ ε) (post : List (Marshaler σ ε)) (err : ε),
      (∀ x ∈ pre, x.byValue = false ∧ x.failure = none) →
      e.byValue = false → e.failure = some err →
      Marshals.loop b (pre ++ e :: post) = .ret ([], some err) := by
  induction pre with
  | nil =>
    intro b e post err _ hk he
    cases e with
    | nil => simp [Marshaler.failure] at he
    | nilRef mb => simp [Marshaler.failure] at he
    | ref s m =>
      cases hm : m s with
      | ok vb => simp [Marshaler.failure, hm] at he
      | error err1 =>
        simp [Marshaler.failure, hm] at he
        subst he
        simpa using Marshals.loop_error b s m post err1 hm
    | val s m => simp [Marshaler.byValue] at hk
  | cons x pre ih =>
    intro b e post err hpre hk he
    have hx := hpre x (List.mem_cons_self _ _)
    have hpre1 : ∀ y ∈ pre, y.byValue = false ∧ y.failure = none :=
      fun y hy => hpre y (List.mem_cons_of_mem _ hy)
    cases x with
    | nil =>
      have := Marshals.loop_absent b (Marshaler.nil : Marshaler σ ε) (pre ++ e :: post) rfl
      simpa [this] using ih b e post err hpre1 hk he
    | nilRef mb =>
      have := Marshals.loop_absent b (Marshaler.nilRef mb) (pre ++ e :: post) rfl
      simpa [this] using ih b e post err hpre1 hk he
    | ref s m =>
      cases hm : m s with
      | error err1 => simp [Marshaler.failure, hm] at hx
      | ok vb =>
        have := Marshals.loop_ok b s m (pre ++ e :: post) vb hm
        simpa [this] using ih _ e post err hpre1 hk he
    | val s m => simp [Marshaler.byValue] at hx

theorem Marshals_concat_aux (o : List (Marshaler σ ε))
    (hk : ∀ e ∈ o, e.byValue = false)
    (h : ∀ e ∈ o, e.absent = false → e.output ≠ none) :
    Marshals o = .ret ((o.filterMap Marshaler.output).flatten, none) := by
  have := Marshals.loop_concat o Buffer.empty (by simp [Buffer.empty]) hk h
  simpa [Marshals, Buffer.empty, Buffer.Bytes] using this

/-- C1: on arguments that are absent or held by reference, when every non-absent
one serializes successfully, `Marshals` returns no error and its bytes are the
concatenation, in argument order, of the `MarshalBinary` outputs of the non-absent
arguments. On a present value of struct kind that serializes successfully,
`Marshals` panics in `reflect.Value.IsNil`, while `Marshal` appends its bytes. -/
theorem Marshals_concatenates :
    (∀ o : List (Marshaler σ ε), (∀ e ∈ o, e.byValue = false) →
      (∀ e ∈ o, e.absent = false → e.output ≠ none) →
      Marshals o = .ret ((o.filterMap Marshaler.output).flatten, none)) ∧
    Marshals [rawValue [0x01], structValue [0x02]]
      = .panic "reflect: call of reflect.Value.IsNil on struct Value" ∧
    Marshal (structValue [0x02]) (some ⟨[0x01], 0⟩) = .ret (⟨[0x01, 0x02], 0⟩, none) :=
  ⟨fun o hk h => Marshals_concat_aux o hk h, rfl, rfl⟩

/-- C2: `Marshals` gives the same bytes and error on a list as on the list with
its absent entries (nil interface, wrapped nil reference) removed. -/
theorem Marshals_skips_absent (o : List (Marshaler σ ε)) :
    Marshals o = Marshals (o.filter fun e => !e.absent) :=
  Marshals.loop_filter o Buffer.empty

/-- C7: on arguments that are absent or held by reference, when a non-absent one
fails to serialize and none before it does, `Marshals` returns that argument's
error and no bytes. With a present value of struct kind before the failing
argument, or as the failing argument, `Marshals` panics in `reflect.Value.IsNil`,
while `Marshal` returns the error of the failing struct value. -/
theorem Marshals_first_error :
    (∀ (pre : List (Marshaler σ ε)) (e : Marshaler σ ε) (post : List (Marshaler σ ε)) (err : ε),
      (∀ x ∈ pre, x.byValue = false ∧ x.failure = none) → e.byValue = false →
      e.failure = some err → Marshals (pre ++ e :: post) = .ret ([], some err)) ∧
    Marshals [structValue [0x01], badValue "first"]
      = .panic "reflect: call of reflect.Value.IsNil on struct Value" ∧
    Marshals [badStructValue "first"]
      = .panic "reflect: call of reflect.Value.IsNil on struct Value" ∧
    Marshal (badStructValue "first") (some ⟨[0x01], 0⟩) = .ret (⟨[0x01], 0⟩, some "first") :=
  ⟨fun pre e post err hpre hk he =>
      Marshals.loop_first_failure pre Buffer.empty e post err hpre hk he, rfl, rfl, rfl⟩

end Encode

theorem Marshals_concatenates_witness :
    Marshals [rawValue [0x01], .nil, nilValue, rawValue [0x02]] = .ret ([0x01, 0x02], none) :=
  (@Marshals_concatenates (List Byte) String).1 [rawValue [0x01], .nil, nilValue, rawValue [0x02]]
    (by simp [rawValue, nilValue, Marshaler.byValue])
    (by simp [rawValue, nilValue, Marshaler.absent, Marshaler.output])

theorem Marshals_first_error_witness :
    Marshals [rawValue [0x01], .nil, badValue "first", rawValue [0x02], badValue "second"]
      = .ret ([], some "first") :=
  (@Marshals_first_error (List Byte) String).1 [rawValue [0x01], .nil] (badValue "first")
    [rawValue [0x02], badValue "second"] "first"
    (by simp [rawValue, Marshaler.failure, Marshaler.byValue]) rfl rfl

/-! ## Properties of `Unmarshal` and `Unmarshals` -/

section Decode

variable {σ ε : Type}

theorem Buffer.Len_eq (b : Buffer) : b.Len = b.Bytes.length := by
  simp [Buffer.Len, Buffer.Bytes]

theorem Buffer.Bytes_advance (b : Buffer) (k : Nat) :
    (Buffer.mk b.buf (b.off + k)).Bytes = b.Bytes.drop k := by
  simp [Buffer.Bytes, List.drop_drop, Nat.add_comm]

theorem Buffer.Next_of_nonneg (b : Buffer) (n : Int) (hn : 0 ≤ n) :
    b.Next n = .ret (b.Bytes.take (min n.toNat b.Len), ⟨b.buf, b.off + min n.toNat b.Len⟩) := by
  unfold Buffer.Next
  by_cases h : n > (b.Len : Int)
  · have h1 : min n.toNat b.Len = b.Len := by omega
    simp [h, h1]
  · have h1 : min n.toNat b.Len = n.toNat := by omega
    have h2 : ¬ n < 0 := by omega
    simp [h, h1, h2]

theorem Buffer.Next_of_neg (b : Buffer) (n : Int) (hn : n < 0) :
    b.Next n = .panic "slice bounds out of range" := by
  unfold Buffer.Next
  have h : ¬ n > (b.Len : Int) := by omega
  simp [h, hn]

theorem decodeStep_error (b : Buffer) (s : σ) (u : σ → List Byte → σ × Option ε) (sz : σ → Int)
    (err : ε) (h : (u s b.Bytes).2 = some err) :
    decodeStep (.ref s u sz) b = .ret (.ref (u s b.Bytes).1 u sz, b, some err) := by
  simp [decodeStep, UnmarshalSizer.UnmarshalBinary, h]

theorem decodeStep_ok (b : Buffer) (s : σ) (u : σ → List Byte → σ × Option ε) (sz : σ → Int)
    (h : (u s b.Bytes).2 = none) (hsz : 0 ≤ sz (u s b.Bytes).1) :
    decodeStep (.ref s u sz) b
      = .ret (.ref (u s b.Bytes).1 u sz,
          ⟨b.buf, b.off + min (sz (u s b.Bytes).1).toNat b.Len⟩, none) := by
  simp [decodeStep, UnmarshalSizer.UnmarshalBinary, UnmarshalSizer.Size, h,
    Buffer.Next_of_nonneg b _ hsz]

theorem Unmarshals_empty (b : Buffer) (ts : List (UnmarshalSizer σ ε)) (h : b.Len = 0) :
    Unmarshals b ts = .ret (b, ts, none) := by
  cases ts <;> simp [Unmarshals, h]

theorem Unmarshals_absent (b : Buffer) (e : UnmarshalSizer σ ε) (rest : List (UnmarshalSizer σ ε))
    (h : b.Len ≠ 0) (he : e.absent = true) :
    Unmarshals b (e :: rest) = Unmarshals.keep e (Unmarshals b rest) := by
  cases e <;>
    simp_all [Unmarshals, UnmarshalSizer.absent, UnmarshalSizer.isNilInterface,
      UnmarshalSizer.IsNil]

theorem Unmarshals_ref (b : Buffer) (s : σ) (u : σ → List Byte → σ × Option ε) (sz : σ → Int)
    (rest : List (UnmarshalSizer σ ε)) (h : b.Len ≠ 0) :
    Unmarshals b (.ref s u sz :: rest)
      = match decodeStep (.ref s u sz) b with
        | .panic msg => .panic msg
        | .ret (e1, b1, some err) => .ret (b1, e1 :: rest, some err)
        | .ret (e1, b1, none) => Unmarshals.keep e1 (Unmarshals b1 rest) := by
  simp [Unmarshals, h, UnmarshalSizer.isNilInterface, UnmarshalSizer.IsNil]

theorem Unmarshals_val (b : Buffer) (s : σ) (u : σ → List Byte → σ × Option ε) (sz : σ → Int)
    (rest : List (UnmarshalSizer σ ε)) (h : b.Len ≠ 0) :
    Unmarshals b (.val s u sz :: rest)
      = .panic "reflect: call of reflect.Value.IsNil on struct Value" := by
  simp [Unmarshals, h, UnmarshalSizer.isNilInterface, UnmarshalSizer.IsNil]

theorem Unmarshals.keep_eq_ret (e : UnmarshalSizer σ ε)
    (x : Exec (Buffer × List (UnmarshalSizer σ ε) × Option ε))
    (b : Buffer) (l : List (UnmarshalSizer σ ε)) (err : Option ε)
    (h : Unmarshals.keep e x = .ret (b, l, err)) :
    ∃ r, x = .ret (b, r, err) ∧ l = e :: r := by
  cases x with
  | panic msg => simp [Unmarshals.keep] at h
  | ret a =>
    obtain ⟨b0, r, err0⟩ := a
    simp [Unmarshals.keep] at h
    obtain ⟨h1, h2, h3⟩ := h
    exact ⟨r, by simp [h1, h3], h2.symm⟩

theorem Unmarshals_append (pre : List (UnmarshalSizer σ ε)) :
    ∀ (b b1 b2 : Buffer) (pre1 post post1 : List (UnmarshalSizer σ ε)) (err : Option ε),
      Unmarshals b pre = .ret (b1, pre1, none) →
      Unmarshals b1 post = .ret (b2, post1, err) →
      Unmarshals b (pre ++ post) = .ret (b2, pre1 ++ post1, err) := by
  induction pre with
  | nil =>
    intro b b1 b2 pre1 post post1 err h1 h2
    simp [Unmarshals] at h1
    obtain ⟨rfl, rfl⟩ := h1
    simpa using h2
  | cons e pre ih =>
    intro b b1 b2 pre1 post post1 err h1 h2
    by_cases hlen : b.Len = 0
    · rw [Unmarshals_empty b _ hlen] at h1
      simp at h1
      obtain ⟨rfl, rfl⟩ := h1
      rw [Unmarshals_empty b _ hlen] at h2
      simp at h2
      obtain ⟨rfl, rfl, rfl⟩ := h2
      rw [Unmarshals_empty b _ hlen]
    · cases hab : e.absent with
      | true =>
        rw [Unmarshals_absent b e pre hlen hab] at h1
        obtain ⟨r, hr, rfl⟩ := Unmarshals.keep_eq_ret e _ _ _ _ h1
        rw [List.cons_append, Unmarshals_absent b e _ hlen hab, ih b b1 b2 r post post1 err hr h2]
        simp [Unmarshals.keep]
      | false =>
        cases e with
        | nil => simp [UnmarshalSizer.absent] at hab
        | nilRef u sz => simp [UnmarshalSizer.absent] at hab
        | ref s u sz =>
          rw [Unmarshals_ref b s u sz pre hlen] at h1
          rw [List.cons_append, Unmarshals_ref b s u sz _ hlen]
          cases hd : decodeStep (UnmarshalSizer.ref s u sz) b with
          | panic msg => simp [hd] at h1
          | ret a =>
            obtain ⟨e1, b3, err3⟩ := a
            cases err3 with
            | some err4 => simp [hd] at h1
            | none =>
              simp only [hd] at h1 ⊢
              obtain ⟨r, hr, rfl⟩ := Unmarshals.keep_eq_ret e1 _ _ _ _ h1
              rw [ih b3 b1 b2 r post post1 err hr h2]
              simp [Unmarshals.keep]
        | val s u sz =>
          rw [Unmarshals_val b s u sz pre hlen] at h1
          simp at h1

theorem Pair.flatten_ne_nil (ps : List (Pair σ ε)) :
    ps ≠ [] → (∀ p, ps.getLast? = some p → p.encoding ≠ []) →
    (ps.map Pair.encoding).flatten ≠ [] := by
  induction ps with
  | nil => intro h; exact absurd rfl h
  | cons p ps ih =>
    intro _ hlast
    cases ps with
    | nil => simpa using hlast p (by simp)
    | cons q qs =>
      have := ih (by simp) (by simpa using hlast)
      simp only [List.map_cons, List.flatten_cons, ne_eq, List.append_eq_nil, not_and] at this ⊢
      intro _
      exact this

theorem Unmarshals_pairs (ps : List (Pair σ ε)) :
    ∀ (b : Buffer) (rest : List Byte), (∀ p ∈ ps, p.correct) →
      (∀ p, ps.getLast? = some p → p.encoding ≠ []) →
      b.Bytes = (ps.map Pair.encoding).flatten ++ rest →
      Unmarshals b (ps.map Pair.decodable)
        = .ret (⟨b.buf, b.off + ((ps.map Pair.encoding).flatten).length⟩,
            ps.map Pair.decoded, none) := by
  induction ps with
  | nil => intro b rest _ _ _; simp [Unmarshals]
  | cons p ps ih =>
    intro b rest hc hlast hb
    have hne := Pair.flatten_ne_nil (p :: ps) (by simp) hlast
    have hlen : b.Len ≠ 0 := by
      rw [Buffer.Len_eq, hb]
      simp only [List.length_append, ne_eq]
      have : 0 < ((List.map Pair.encoding (p :: ps)).flatten).length :=
        List.length_pos.mpr hne
      omega
    obtain ⟨_, hdec, hsize⟩ := hc p (List.mem_cons_self _ _)
    have hb1 : b.Bytes = p.encoding ++ ((ps.map Pair.encoding).flatten ++ rest) := by
      rw [hb]; simp
    have hu : p.UnmarshalBinary p.target b.Bytes = (p.value, none) := by
      rw [hb1]; exact hdec _
    have hle : p.encoding.length ≤ b.Len := by
      rw [Buffer.Len_eq, hb1]; simp
    have hstep : decodeStep p.decodable b
        = .ret (p.decoded, ⟨b.buf, b.off + p.encoding.length⟩, none) := by
      have h1 := decodeStep_ok b p.target p.UnmarshalBinary p.Size (by rw [hu])
        (by rw [hu, hsize]; exact Int.ofNat_nonneg _)
      rw [hu] at h1
      simp only [hsize, Int.toNat_ofNat, Nat.min_eq_left hle] at h1
      exact h1
    have hlast1 : ∀ q, ps.getLast? = some q → q.encoding ≠ [] := by
      cases ps with
      | nil => simp
      | cons q qs => simpa using hlast
    have hb2 : (Buffer.mk b.buf (b.off + p.encoding.length)).Bytes
        = (ps.map Pair.encoding).flatten ++ rest := by
      rw [Buffer.Bytes_advance, hb1]; simp
    have hrec := ih ⟨b.buf, b.off + p.encoding.length⟩ rest
      (fun q hq => hc q (List.mem_cons_of_mem _ hq)) hlast1 hb2
    have hunf := Unmarshals_ref b p.target p.UnmarshalBinary p.Size
      (ps.map Pair.decodable) hlen
    simp only [List.map_cons]
    show Unmarshals b (UnmarshalSizer.ref p.target p.UnmarshalBinary p.Size
      :: ps.map Pair.decodable) = _
    rw [hunf]
    have hstep1 : decodeStep (UnmarshalSizer.ref p.target p.UnmarshalBinary p.Size) b
        = .ret (p.decoded, ⟨b.buf, b.off + p.encoding.length⟩, none) := hstep
    rw [hstep1]
    simp only [hrec, Unmarshals.keep, List.flatten_cons, List.length_append, Nat.add_assoc]

theorem Marshals_pairs (ps : List (Pair σ ε)) (hc : ∀ p ∈ ps, p.correct) :
    Marshals (ps.map Pair.encodable) = .ret ((ps.map Pair.encoding).flatten, none) := by
  have hout : ∀ p ∈ ps, p.encodable.output = some p.encoding := by
    intro p hp
    have := (hc p hp).1
    simp [Pair.encodable, Marshaler.output, this]
  have h1 := Marshals_concat_aux (ps.map Pair.encodable)
    (by
      intro e he
      obtain ⟨p, _, rfl⟩ := List.mem_map.mp he
      rfl)
    (by
      intro e he _
      obtain ⟨p, hp, rfl⟩ := List.mem_map.mp he
      simp [hout p hp])
  rw [h1]
  have : (ps.map Pair.encodable).filterMap Marshaler.output = ps.map Pair.encoding := by
    clear h1 hc
    induction ps with
    | nil => rfl
    | cons p ps ih =>
      have hp := hout p (List.mem_cons_self _ _)
      have := ih (fun q hq => hout q (List.mem_cons_of_mem _ hq))
      simp [List.filterMap_cons, hp, this]
  rw [this]

theorem Pair.flatten_eq_nil (ps : List (Pair σ ε)) (h : ∀ p ∈ ps, p.encoding = []) :
    (ps.map Pair.encoding).flatten = [] := by
  induction ps with
  | nil => rfl
  | cons p ps ih =>
    simp [h p (List.mem_cons_self _ _), ih fun q hq => h q (List.mem_cons_of_mem _ hq)]

/-- C3 (amended): round trip. For values and targets `init ++ tail` held by
reference, with correct decoders, `tail` being the values after the last one with
a non-empty encoding, `Unmarshals`
on the bytes returned by `Marshals` returns no error, consumes all the bytes and
leaves the targets of `init` equal to their values, in order; the targets of
`tail` are not decoded and keep their state. -/
theorem Marshals_Unmarshals_round_trip (init tail : List (Pair σ ε))
    (hc : ∀ p ∈ init ++ tail, p.correct)
    (hlast : ∀ p, init.getLast? = some p → p.encoding ≠ [])
    (htail : ∀ p ∈ tail, p.encoding = []) :
    ∃ data, Marshals ((init ++ tail).map Pair.encodable) = .ret (data, none) ∧
      Unmarshals ⟨data, 0⟩ ((init ++ tail).map Pair.decodable)
        = .ret (⟨data, data.length⟩, init.map Pair.decoded ++ tail.map Pair.decodable, none) := by
  have hdata : ((init ++ tail).map Pair.encoding).flatten = (init.map Pair.encoding).flatten := by
    simp [Pair.flatten_eq_nil tail htail]
  refine ⟨(init.map Pair.encoding).flatten, ?_, ?_⟩
  · rw [Marshals_pairs (init ++ tail) hc, hdata]
  · have h1 := Unmarshals_pairs init ⟨(init.map Pair.encoding).flatten, 0⟩ []
      (fun p hp => hc p (List.mem_append_left _ hp)) hlast (by simp [Buffer.Bytes])
    simp only [Nat.zero_add] at h1
    rw [List.map_append]
    exact Unmarshals_append _ _ _ _ _ _ _ none h1
      (Unmarshals_empty _ _ (by simp [Buffer.Len]))

/-- C4 (amended): on a present buffer and a present target whose `UnmarshalBinary`
succeeds and whose `Size()` is then non-negative, `Unmarshal` returns no error
and moves the cursor by `min(Size(), Len())` bytes, whatever the decoder read:
the unread bytes afterwards are the previous ones without their first `Size()` bytes. -/
theorem Unmarshal_advances (b : Buffer) (s : σ) (u : σ → List Byte → σ × Option ε)
    (sz : σ → Int) (hok : (u s b.Bytes).2 = none) (hsz : 0 ≤ sz (u s b.Bytes).1) :
    ∃ b1, Unmarshal (.ref s u sz) (some b) = .ret (.ref (u s b.Bytes).1 u sz, b1, none) ∧
      b1.buf = b.buf ∧
      b1.off = b.off + min (sz (u s b.Bytes).1).toNat b.Len ∧
      b1.Bytes = b.Bytes.drop (sz (u s b.Bytes).1).toNat := by
  refine ⟨⟨b.buf, b.off + min (sz (u s b.Bytes).1).toNat b.Len⟩, ?_, rfl, rfl, ?_⟩
  · simp [Unmarshal, UnmarshalSizer.isNilInterface, decodeStep_ok b s u sz hok hsz]
  · rw [Buffer.Bytes_advance]
    rcases Nat.le_total (sz (u s b.Bytes).1).toNat b.Len with h | h
    · rw [Nat.min_eq_left h]
    · rw [Nat.min_eq_right h, Buffer.Len_eq, List.drop_length,
        List.drop_eq_nil_of_le (by rw [← Buffer.Len_eq]; exact h)]

/-- C5 (amended): when decoding the first targets alone returns no error and
leaves no unread byte, `Unmarshals` on the whole list returns no error, treats
these targets and the buffer in the same way, and leaves the remaining targets unmodified. -/
theorem Unmarshals_early_stop (b b1 : Buffer) (pre pre1 post : List (UnmarshalSizer σ ε))
    (hpre : Unmarshals b pre = .ret (b1, pre1, none)) (hlen : b1.Len = 0) :
    Unmarshals b (pre ++ post) = .ret (b1, pre1 ++ post, none) :=
  Unmarshals_append pre b b1 b1 pre1 post post none hpre (Unmarshals_empty b1 post hlen)

/-- C6: when the targets before a present target decode without error and leave
unread bytes that this target's `UnmarshalBinary` rejects, `Unmarshals` returns
that error at once: the later targets are untouched and the buffer is the one
left by the earlier targets. -/
theorem Unmarshals_first_reject (b b1 : Buffer) (pre pre1 post : List (UnmarshalSizer σ ε))
    (s : σ) (u : σ → List Byte → σ × Option ε) (sz : σ → Int) (err : ε)
    (hpre : Unmarshals b pre = .ret (b1, pre1, none)) (hlen : b1.Len ≠ 0)
    (hrej : (u s b1.Bytes).2 = some err) :
    Unmarshals b (pre ++ .ref s u sz :: post)
      = .ret (b1, pre1 ++ .ref (u s b1.Bytes).1 u sz :: post, some err) := by
  apply Unmarshals_append pre b b1 b1 pre1 _ _ (some err) hpre
  rw [Unmarshals_ref b1 s u sz post hlen, decodeStep_error b1 s u sz err hrej]

end Decode

theorem fixedPair_correct (v t : List Byte) : (fixedPair v.length v t).correct := by
  refine ⟨rfl, ?_, rfl⟩
  intro rest
  simp [fixedPair, Pair.encoding, fixedDecode]

theorem Marshals_Unmarshals_round_trip_witness :
    ∃ data,
      Marshals (([fixedPair 1 [1] [9], fixedPair 2 [2, 3] [9, 9]] ++ [fixedPair 0 [] [9]]).map
        Pair.encodable) = .ret (data, none) ∧
      Unmarshals ⟨data, 0⟩
        (([fixedPair 1 [1] [9], fixedPair 2 [2, 3] [9, 9]] ++ [fixedPair 0 [] [9]]).map
          Pair.decodable)
        = .ret (⟨data, data.length⟩,
            [fixedPair 1 [1] [9], fixedPair 2 [2, 3] [9, 9]].map Pair.decoded
              ++ [fixedPair 0 [] [9]].map Pair.decodable, none) :=
  Marshals_Unmarshals_round_trip [fixedPair 1 [1] [9], fixedPair 2 [2, 3] [9, 9]]
    [fixedPair 0 [] [9]]
    (by
      intro p hp
      simp only [List.cons_append, List.nil_append, List.mem_cons, List.mem_singleton,
        List.not_mem_nil, or_false] at hp
      rcases hp with rfl | rfl | rfl
      · exact fixedPair_correct [1] [9]
      · exact fixedPair_correct [2, 3] [9, 9]
      · exact fixedPair_correct [] [9])
    (by simp [fixedPair, Pair.encoding])
    (by simp [fixedPair, Pair.encoding])

/-- C3 (as stated) fails: a last value with an empty encoding is never decoded,
`Unmarshals` stopping on the exhausted buffer, and its target keeps its old state.
Besides, on a value or a target of struct kind `Marshals` and `Unmarshals` panic
in `reflect.Value.IsNil`. -/
theorem Marshals_Unmarshals_round_trip_counterexample :
    (∀ p ∈ [fixedPair 1 [1] [9], fixedPair 0 [] [9]], p.correct) ∧
    Marshals ([fixedPair 1 [1] [9], fixedPair 0 [] [9]].map Pair.encodable)
      = .ret ([1], none) ∧
    Unmarshals ⟨[1], 0⟩ ([fixedPair 1 [1] [9], fixedPair 0 [] [9]].map Pair.decodable)
      = .ret (⟨[1], 1⟩, [(fixedPair 1 [1] [9]).decoded, (fixedPair 0 [] [9]).decodable], none) ∧
    (fixedPair 0 [] [9]).target ≠ (fixedPair 0 [] [9]).value ∧
    Marshals [structValue [1]] = .panic "reflect: call of reflect.Value.IsNil on struct Value" ∧
    Unmarshals ⟨[1], 0⟩ [structTarget 1 [9]]
      = .panic "reflect: call of reflect.Value.IsNil on struct Value" := by
  refine ⟨?_, rfl, rfl, by decide, rfl, rfl⟩
  intro p hp
  simp only [List.mem_cons, List.mem_singleton, List.not_mem_nil, or_false] at hp
  rcases hp with rfl | rfl
  · exact fixedPair_correct [1] [9]
  · exact fixedPair_correct [] [9]

theorem Unmarshal_advances_witness :
    ∃ b1, Unmarshal (fixedTarget 2 []) (some ⟨[1, 2, 3], 0⟩)
        = .ret (fixedTarget 2 [1, 2], b1, none) ∧
      b1.buf = [1, 2, 3] ∧ b1.off = 0 + min (2 : Int).toNat 3 ∧ b1.Bytes = [3] :=
  Unmarshal_advances ⟨[1, 2, 3], 0⟩ [] (fixedDecode 2) (fun _ => 2) rfl (by decide)

/-- C4 (as stated) fails: a target reporting a `Size()` of 2 on a buffer with one
unread byte moves the cursor by 1, and a negative `Size()` makes `Unmarshal` panic. -/
theorem Unmarshal_advances_counterexample :
    Unmarshal (greedyTarget 2 []) (some ⟨[7], 0⟩) = .ret (greedyTarget 2 [7], ⟨[7], 1⟩, none) ∧
    (greedyTarget 2 [7]).Size = .ret 2 ∧
    (Buffer.mk [7] 1).off < (Buffer.mk [7] 0).off + 2 ∧
    Unmarshal (greedyTarget (-1) []) (some ⟨[7], 0⟩) = .panic "slice bounds out of range" :=
  ⟨rfl, rfl, by decide, rfl⟩

theorem Unmarshals_early_stop_witness :
    Unmarshals ⟨[1, 2], 0⟩ ([fixedTarget 2 []] ++ [fixedTarget 1 [9], fixedTarget 3 []])
      = .ret (⟨[1, 2], 2⟩, [fixedTarget 2 [1, 2]] ++ [fixedTarget 1 [9], fixedTarget 3 []], none) :=
  Unmarshals_early_stop ⟨[1, 2], 0⟩ ⟨[1, 2], 2⟩ [fixedTarget 2 []] [fixedTarget 2 [1, 2]]
    [fixedTarget 1 [9], fixedTarget 3 []] rfl rfl

/-- C5 (as stated) fails: three unread bytes are fewer than two 2-byte targets
require, and `Unmarshals` returns the error of the second target's decoder. -/
theorem Unmarshals_early_stop_counterexample :
    (Buffer.mk [1, 2, 3] 0).Len < 2 + 2 ∧
    Unmarshals ⟨[1, 2, 3], 0⟩ [fixedTarget 2 [], fixedTarget 2 []]
      = .ret (⟨[1, 2, 3], 2⟩, [fixedTarget 2 [1, 2], fixedTarget 2 []], some "short") :=
  ⟨by decide, rfl⟩

theorem Unmarshals_first_reject_witness :
    Unmarshals ⟨[1, 2, 3], 0⟩ ([fixedTarget 2 []] ++ fixedTarget 2 [] :: [fixedTarget 1 [9]])
      = .ret (⟨[1, 2, 3], 2⟩, [fixedTarget 2 [1, 2]] ++ fixedTarget 2 [] :: [fixedTarget 1 [9]],
          some "short") :=
  Unmarshals_first_reject ⟨[1, 2, 3], 0⟩ ⟨[1, 2, 3], 2⟩ [fixedTarget 2 []] [fixedTarget 2 [1, 2]]
    [fixedTarget 1 [9]] [] (fixedDecode 2) (fun _ => 2) "short" rfl (by decide) rfl

/-! ## Properties of `startsWith` and `discardUtil` -/

section Scan

variable {ε : Type}

theorem startsWith.loop_iff (pk : List Byte) :
    ∀ flags : List Byte, pk.length = flags.length →
      (startsWith.loop pk flags = true ↔ pk = flags) := by
  induction pk with
  | nil =>
    intro flags h
    cases flags with
    | nil => simp [startsWith.loop]
    | cons f fs => simp at h
  | cons p pk ih =>
    intro flags h
    cases flags with
    | nil => simp at h
    | cons f fs =>
      have hlen : pk.length = fs.length := by simpa using h
      by_cases hpf : p = f
      · simp [startsWith.loop, hpf, ih fs hlen]
      · simp [startsWith.loop, hpf]

theorem startsWith_eq (r : Reader ε) (flags : List Byte) :
    startsWith r flags =
      if r.size < flags.length then (r, false, some r.full)
      else if flags.length ≤ r.unread.length then
        (r, decide (r.unread.take flags.length = flags), none)
      else (r, false, some r.err) := by
  unfold startsWith Reader.Peek
  by_cases hs : r.size < flags.length
  · simp [hs]
  · by_cases h : flags.length ≤ r.unread.length
    · have hl : (r.unread.take flags.length).length = flags.length := by
        simp [List.length_take, h]
      have := startsWith.loop_iff (r.unread.take flags.length) flags hl
      simp only [gt_iff_lt, hs, h, if_true, if_false]
      congr 2
      by_cases hm : r.unread.take flags.length = flags
      · rw [this.mpr hm]; simp [hm]
      · have hf : startsWith.loop (r.unread.take flags.length) flags = false := by
          cases hx : startsWith.loop (r.unread.take flags.length) flags with
          | false => rfl
          | true => exact absurd (this.mp hx) hm
        rw [hf]; simp [hm]
    · simp [hs, h]

theorem length_pos_of_no_match (flags l : List Byte) (h : flags.length ≤ l.length)
    (hm : l.take flags.length ≠ flags) : 1 ≤ l.length := by
  rcases Nat.eq_zero_or_pos l.length with h0 | h0
  · exfalso
    apply hm
    have hf : flags.length = 0 := by omega
    rw [hf, List.take_zero]
    exact (List.length_eq_zero.mp hf).symm
  · exact h0

theorem discardUtil_succ (flags : List Byte) (fuel : Nat) (r : Reader ε) :
    discardUtil flags (fuel + 1) r =
      if r.size < flags.length then some (r, some r.full)
      else if r.unread.length < flags.length then some (r, some r.err)
      else if r.unread.take flags.length = flags then some (r, none)
      else discardUtil flags fuel { r with unread := r.unread.drop 1 } := by
  rw [discardUtil, startsWith_eq]
  by_cases hs : r.size < flags.length
  · simp [hs]
  · by_cases h : flags.length ≤ r.unread.length
    · have h1 : ¬ r.unread.length < flags.length := by omega
      by_cases hm : r.unread.take flags.length = flags
      · simp [hs, h, h1, hm]
      · have hne : 1 ≤ r.unread.length := length_pos_of_no_match flags r.unread h hm
        simp [hs, h, h1, hm, Reader.Discard, hne]
    · have h1 : r.unread.length < flags.length := by omega
      simp [hs, h, h1]

theorem take_eq_iff_isPrefix (flags l : List Byte) :
    l.take flags.length = flags ↔ flags <+: l := by
  rw [ List.prefix_iff_eq_take]
  exact eq_comm

theorem discardUtil_match_aux (flags : List Byte) (fuel : Nat) :
    ∀ r r1 : Reader ε, discardUtil flags fuel r = some (r1, none) →
      ∃ k, k + flags.length ≤ r.unread.length ∧ r1 = { r with unread := r.unread.drop k } ∧
        flags <+: r.unread.drop k ∧ ∀ j, j < k → ¬ flags <+: r.unread.drop j := by
  induction fuel with
  | zero => intro r r1 h; simp [discardUtil] at h
  | succ fuel ih =>
    intro r r1 h
    rw [discardUtil_succ] at h
    by_cases hs : r.size < flags.length
    · simp [hs] at h
    · by_cases h1 : r.unread.length < flags.length
      · simp [hs, h1] at h
      · by_cases hm : r.unread.take flags.length = flags
        · simp only [hs, h1, hm, if_true, if_false, Option.some.injEq, Prod.mk.injEq,
            and_true] at h
          refine ⟨0, by simpa using Nat.le_of_not_lt h1, by simp [← h], ?_, ?_⟩
          · simpa using (take_eq_iff_isPrefix flags r.unread).mp hm
          · intro j hj; omega
        · simp only [hs, h1, hm, if_false] at h
          obtain ⟨k, hk, hr1, hpre, hmin⟩ := ih _ _ h
          have hne : 1 ≤ r.unread.length :=
            length_pos_of_no_match flags r.unread (Nat.le_of_not_lt h1) hm
          simp only [List.length_drop, List.drop_drop] at hk hr1 hpre hmin
          refine ⟨k + 1, by omega, ?_, ?_, ?_⟩
          · rw [hr1, Nat.add_comm k 1]
          · rw [Nat.add_comm k 1]; exact hpre
          · intro j hj
            cases j with
            | zero =>
              simpa using fun hp => hm ((take_eq_iff_isPrefix flags r.unread).mpr hp)
            | succ j =>
              have := hmin j (by omega)
              rwa [Nat.add_comm 1 j] at this

theorem discardUtil_total_aux (flags : List Byte) (fuel : Nat) :
    ∀ r : Reader ε, r.unread.length < fuel →
      ∃ r1 e, discardUtil flags fuel r = some (r1, e) ∧
        (flags.length ≤ r.size →
          (e ≠ none ↔ ¬ flags <:+: r.unread) ∧ (e = none ∨ e = some r.err)) ∧
        (r.size < flags.length → r1 = r ∧ e = some r.full) := by
  induction fuel with
  | zero => intro r h; omega
  | succ fuel ih =>
    intro r hfuel
    rw [discardUtil_succ]
    by_cases hs : r.size < flags.length
    · exact ⟨r, some r.full, by simp [hs], fun h => absurd hs (by omega), fun _ => ⟨rfl, rfl⟩⟩
    · by_cases h1 : r.unread.length < flags.length
      · refine ⟨r, some r.err, by simp [hs, h1], fun _ => ⟨?_, Or.inr rfl⟩,
          fun h => absurd h hs⟩
        simp only [ne_eq, reduceCtorEq, not_false_eq_true, true_iff]
        intro hin
        have := hin.length_le
        omega
      · by_cases hm : r.unread.take flags.length = flags
        · refine ⟨r, none, by simp [hs, h1, hm], fun _ => ⟨?_, Or.inl rfl⟩,
            fun h => absurd h hs⟩
          simp only [ne_eq, not_true_eq_false, false_iff, not_not]
          exact ((take_eq_iff_isPrefix flags r.unread).mp hm).isInfix
        · have hnp : ¬ flags <+: r.unread := fun hp =>
            hm ((take_eq_iff_isPrefix flags r.unread).mpr hp)
          have hne : 1 ≤ r.unread.length :=
            length_pos_of_no_match flags r.unread (Nat.le_of_not_lt h1) hm
          obtain ⟨r1, e, he, hiff, hfull⟩ := ih { r with unread := r.unread.drop 1 }
            (by simp only [List.length_drop]; omega)
          refine ⟨r1, e, by simp only [hs, h1, hm, if_false]; exact he, fun hle => ?_,
            fun h => absurd h hs⟩
          obtain ⟨hiff1, herr⟩ := hiff hle
          refine ⟨?_, herr⟩
          rw [hiff1]
          cases hu : r.unread with
          | nil => rw [hu] at hne; simp at hne
          | cons a t =>
            rw [hu] at hnp
            simp only [List.drop_succ_cons, List.drop_zero]
            rw [ List.infix_cons_iff]
            simp [hnp]

theorem discardUtil_succ_of_some (flags : List Byte) (fuel : Nat) :
    ∀ (r : Reader ε) (x : Reader ε × Option ε),
      discardUtil flags fuel r = some x → discardUtil flags (fuel + 1) r = some x := by
  induction fuel with
  | zero => intro r x h; simp [discardUtil] at h
  | succ fuel ih =>
    intro r x h
    rw [discardUtil_succ] at h ⊢
    by_cases hs : r.size < flags.length
    · simpa [hs] using h
    · by_cases h1 : r.unread.length < flags.length
      · simpa [hs, h1] using h
      · by_cases hm : r.unread.take flags.length = flags
        · simpa [hs, h1, hm] using h
        · simp only [hs, h1, hm, if_false] at h ⊢
          exact ih _ x h

theorem discardUtil_mono (flags : List Byte) (fuel n : Nat) (r : Reader ε)
    (x : Reader ε × Option ε) (h : discardUtil flags fuel r = some x) (hn : fuel ≤ n) :
    discardUtil flags n r = some x := by
  induction n with
  | zero =>
    have : fuel = 0 := by omega
    rw [this] at h
    exact h
  | succ n ih =>
    rcases Nat.lt_or_ge n fuel with hlt | hge
    · have : fuel = n + 1 := by omega
      rw [← this]; exact h
    · exact discardUtil_succ_of_some flags n r x (ih hge)

end Scan

section ScanClaims

variable {ε : Type}

/-- C10 (amended): `startsWith` leaves the reader where it was. For a pattern no
longer than the reader's buffer: with at least `len(flags)` unread bytes it
returns no error and `match` tells whether the next `len(flags)` bytes equal
`flags`; with fewer it returns the source's error. For a longer pattern it returns
`ErrBufferFull`, whatever is unread. -/
theorem startsWith_spec (r : Reader ε) (flags : List Byte) :
    startsWith r flags =
      if r.size < flags.length then (r, false, some r.full)
      else if flags.length ≤ r.unread.length then
        (r, decide (r.unread.take flags.length = flags), none)
      else (r, false, some r.err) :=
  startsWith_eq r flags

/-- C8: when `discardUtil` returns without error, the bytes it discarded end at
the first position of the unread bytes where the whole pattern occurs, and the
reader stands at the start of that occurrence. -/
theorem discardUtil_first_occurrence (flags : List Byte) (fuel : Nat) (r r1 : Reader ε)
    (h : discardUtil flags fuel r = some (r1, none)) :
    ∃ k, k + flags.length ≤ r.unread.length ∧ r1 = { r with unread := r.unread.drop k } ∧
      flags <+: r.unread.drop k ∧ ∀ j, j < k → ¬ flags <+: r.unread.drop j :=
  discardUtil_match_aux flags fuel r r1 h

/-- C9 (amended): on a finite source `discardUtil` terminates: allowed more
iterations than there are unread bytes, it returns, and with the same result
however many more are allowed. For a pattern no longer than the reader's buffer it
returns an error exactly when the pattern occurs nowhere in the unread bytes, and
that error is the source's; for a longer pattern it returns `ErrBufferFull` with
the reader where it was. -/
theorem discardUtil_terminates (flags : List Byte) (fuel : Nat) (r : Reader ε)
    (hfuel : r.unread.length < fuel) :
    ∃ r1 e, (∀ n, fuel ≤ n → discardUtil flags n r = some (r1, e)) ∧
      (flags.length ≤ r.size →
        (e ≠ none ↔ ¬ flags <:+: r.unread) ∧ (e = none ∨ e = some r.err)) ∧
      (r.size < flags.length → r1 = r ∧ e = some r.full) := by
  obtain ⟨r1, e, h, hiff, hfull⟩ := discardUtil_total_aux flags fuel r hfuel
  exact ⟨r1, e, fun n hn => discardUtil_mono flags fuel n r (r1, e) h hn, hiff, hfull⟩

end ScanClaims

theorem startsWith_spec_witness :
    startsWith (source [0x0D]) [0x0D, 0x0A] = (source [0x0D], false, some "EOF") ∧
    startsWith (source [0x0D, 0x0A, 0x41]) [0x0D, 0x0A] = (source [0x0D, 0x0A, 0x41], true, none) ∧
    startsWith (source [0x0D, 0x41, 0x0A]) [0x0D, 0x0A]
      = (source [0x0D, 0x41, 0x0A], false, none) :=
  ⟨(startsWith_spec (source [0x0D]) [0x0D, 0x0A]).trans rfl,
    (startsWith_spec (source [0x0D, 0x0A, 0x41]) [0x0D, 0x0A]).trans rfl,
    (startsWith_spec (source [0x0D, 0x41, 0x0A]) [0x0D, 0x0A]).trans rfl⟩

/-- C10 (as stated) fails: on a reader with a 16-byte buffer and 20 unread bytes,
a 17-byte pattern equal to the next 17 bytes gives `ErrBufferFull` and no match. -/
theorem startsWith_spec_counterexample :
    startsWith (smallSource (List.replicate 20 0x41)) (List.replicate 17 0x41)
      = (smallSource (List.replicate 20 0x41), false, some "bufio: buffer full") ∧
    (List.replicate 17 0x41).length ≤ (smallSource (List.replicate 20 0x41)).unread.length ∧
    (smallSource (List.replicate 20 0x41)).unread.take 17 = List.replicate 17 0x41 :=
  ⟨by decide, by decide, by decide⟩

theorem discardUtil_first_occurrence_witness :
    discardUtil [0x0D, 0x0A] 7 (source [0x41, 0x42, 0x43, 0x00, 0x0D, 0x0A])
      = some (source [0x0D, 0x0A], none) ∧
    [0x41, 0x42, 0x43, 0x00, 0x0D, 0x0A].drop 4 = [0x0D, 0x0A] ∧
    ∃ k, k + [0x0D, 0x0A].length ≤ [0x41, 0x42, 0x43, 0x00, 0x0D, 0x0A].length ∧
      source [0x0D, 0x0A] = { source [0x41, 0x42, 0x43, 0x00, 0x0D, 0x0A] with
        unread := [0x41, 0x42, 0x43, 0x00, 0x0D, 0x0A].drop k } ∧
      [0x0D, 0x0A] <+: [0x41, 0x42, 0x43, 0x00, 0x0D, 0x0A].drop k ∧
      ∀ j, j < k → ¬ [0x0D, 0x0A] <+: [0x41, 0x42, 0x43, 0x00, 0x0D, 0x0A].drop j :=
  ⟨by decide, rfl,
    discardUtil_first_occurrence [0x0D, 0x0A] 7 (source [0x41, 0x42, 0x43, 0x00, 0x0D, 0x0A])
      (source [0x0D, 0x0A]) (by decide)⟩

theorem discardUtil_terminates_witness :
    discardUtil [0x0D, 0x0A] 4 (source [0x41, 0x0D, 0x42]) = some (source [0x42], some "EOF") ∧
    ∃ r1 e, (∀ n, 4 ≤ n → discardUtil [0x0D, 0x0A] n (source [0x41, 0x0D, 0x42]) = some (r1, e)) ∧
      ([0x0D, 0x0A].length ≤ (source [0x41, 0x0D, 0x42]).size →
        (e ≠ none ↔ ¬ [0x0D, 0x0A] <:+: [0x41, 0x0D, 0x42]) ∧ (e = none ∨ e = some "EOF")) ∧
      ((source [0x41, 0x0D, 0x42]).size < [0x0D, 0x0A].length →
        r1 = source [0x41, 0x0D, 0x42] ∧ e = some "bufio: buffer full") :=
  ⟨by decide, discardUtil_terminates [0x0D, 0x0A] 4 (source [0x41, 0x0D, 0x42]) (by decide)⟩

/-- C9 (as stated) fails: on a reader with a 16-byte buffer, a 17-byte pattern that
occurs in the 20 unread bytes makes `discardUtil` return `ErrBufferFull`, which is
not the source's error. -/
theorem discardUtil_terminates_counterexample :
    discardUtil (List.replicate 17 0x41) 21 (smallSource (List.replicate 20 0x41))
      = some (smallSource (List.replicate 20 0x41), some "bufio: buffer full") ∧
    List.replicate 17 0x41 <:+: (smallSource (List.replicate 20 0x41)).unread ∧
    (smallSource (List.replicate 20 0x41)).err ≠ "bufio: buffer full" :=
  ⟨by decide, ⟨[], List.replicate 3 0x41, by decide⟩, by decide⟩


/-! ## Properties of `discardUtilAny` and `discardUtilNot` -/

section ScanSet

variable {ε : Type}

theorem discardUtilAny_loop_iff (x : Byte) (flags : List Byte) :
    discardUtilAny.loop [x] flags = true ↔ x ∈ flags := by
  induction flags with
  | nil => simp [discardUtilAny.loop]
  | cons v vs ih =>
    by_cases h : x = v
    · simp [discardUtilAny.loop, h]
    · simp [discardUtilAny.loop, h, ih]

theorem discardUtilNot_loop_iff (x : Byte) (flags : List Byte) :
    discardUtilNot.loop [x] flags = true ↔ x ∈ flags := by
  induction flags with
  | nil => simp [discardUtilNot.loop]
  | cons v vs ih =>
    by_cases h : x = v
    · simp [discardUtilNot.loop, h]
    · simp [discardUtilNot.loop, h, ih]

theorem Reader.one_le_size (r : Reader ε) : ¬ 1 > r.size := by
  have := r.size_ge
  omega

theorem discardUtilAny_nil (flags : List Byte) (fuel : Nat) (r : Reader ε)
    (h : r.unread = []) : discardUtilAny flags (fuel + 1) r = some (r, some r.err) := by
  simp [discardUtilAny, Reader.Peek, h, r.one_le_size]

theorem discardUtilAny_cons (flags : List Byte) (fuel : Nat) (r : Reader ε) (x : Byte)
    (t : List Byte) (h : r.unread = x :: t) :
    discardUtilAny flags (fuel + 1) r =
      if x ∈ flags then some (r, none) else discardUtilAny flags fuel { r with unread := t } := by
  by_cases hx : x ∈ flags
  · have := (discardUtilAny_loop_iff x flags).mpr hx
    simp [discardUtilAny, Reader.Peek, h, hx, this, r.one_le_size]
  · have : discardUtilAny.loop [x] flags = false := by
      cases hl : discardUtilAny.loop [x] flags with
      | false => rfl
      | true => exact absurd ((discardUtilAny_loop_iff x flags).mp hl) hx
    simp [discardUtilAny, Reader.Peek, Reader.Discard, h, hx, this, r.one_le_size]

theorem discardUtilNot_nil (flags : List Byte) (fuel : Nat) (r : Reader ε)
    (h : r.unread = []) : discardUtilNot flags (fuel + 1) r = some (r, some r.err) := by
  simp [discardUtilNot, Reader.Peek, h, r.one_le_size]

theorem discardUtilNot_cons (flags : List Byte) (fuel : Nat) (r : Reader ε) (x : Byte)
    (t : List Byte) (h : r.unread = x :: t) :
    discardUtilNot flags (fuel + 1) r =
      if x ∈ flags then discardUtilNot flags fuel { r with unread := t } else some (r, none) := by
  by_cases hx : x ∈ flags
  · have := (discardUtilNot_loop_iff x flags).mpr hx
    simp [discardUtilNot, Reader.Peek, Reader.Discard, h, hx, this, r.one_le_size]
  · have : discardUtilNot.loop [x] flags = false := by
      cases hl : discardUtilNot.loop [x] flags with
      | false => rfl
      | true => exact absurd ((discardUtilNot_loop_iff x flags).mp hl) hx
    simp [discardUtilNot, Reader.Peek, h, hx, this, r.one_le_size]

theorem Reader.with_unread_self (r : Reader ε) (l : List Byte) (h : r.unread = l) :
    { r with unread := l } = r := by
  cases r
  simp at h
  simp [h]

theorem discardUtilAny_eq (flags : List Byte) (l : List Byte) :
    ∀ (r : Reader ε) (fuel : Nat), r.unread = l → l.length < fuel →
      discardUtilAny flags fuel r =
        some ({ r with unread := l.dropWhile (fun x => decide (x ∉ flags)) },
          if ∃ x ∈ l, x ∈ flags then none else some r.err) := by
  induction l with
  | nil =>
    intro r fuel hr h
    obtain ⟨n, rfl⟩ : ∃ n, fuel = n + 1 := ⟨fuel - 1, by omega⟩
    rw [discardUtilAny_nil flags n r hr]
    simp [Reader.with_unread_self r [] hr]
  | cons x t ih =>
    intro r fuel hr h
    obtain ⟨n, rfl⟩ : ∃ n, fuel = n + 1 := ⟨fuel - 1, by omega⟩
    rw [discardUtilAny_cons flags n r x t hr]
    by_cases hx : x ∈ flags
    · simp [hx, List.dropWhile_cons, Reader.with_unread_self r (x :: t) hr]
    · rw [if_neg hx, ih { r with unread := t } n rfl (by simpa using h)]
      simp [hx, List.dropWhile_cons]

theorem discardUtilNot_eq (flags : List Byte) (l : List Byte) :
    ∀ (r : Reader ε) (fuel : Nat), r.unread = l → l.length < fuel →
      discardUtilNot flags fuel r =
        some ({ r with unread := l.dropWhile (fun x => decide (x ∈ flags)) },
          if ∃ x ∈ l, x ∉ flags then none else some r.err) := by
  induction l with
  | nil =>
    intro r fuel hr h
    obtain ⟨n, rfl⟩ : ∃ n, fuel = n + 1 := ⟨fuel - 1, by omega⟩
    rw [discardUtilNot_nil flags n r hr]
    simp [Reader.with_unread_self r [] hr]
  | cons x t ih =>
    intro r fuel hr h
    obtain ⟨n, rfl⟩ : ∃ n, fuel = n + 1 := ⟨fuel - 1, by omega⟩
    rw [discardUtilNot_cons flags n r x t hr]
    by_cases hx : x ∈ flags
    · rw [if_pos hx, ih { r with unread := t } n rfl (by simpa using h)]
      simp [hx, List.dropWhile_cons]
    · simp [hx, List.dropWhile_cons, Reader.with_unread_self r (x :: t) hr]

theorem discardUtil_drop (flags : List Byte) (fuel : Nat) :
    ∀ (r r1 : Reader ε) (e : Option ε), discardUtil flags fuel r = some (r1, e) →
      ∃ k, r1 = { r with unread := r.unread.drop k } := by
  induction fuel with
  | zero => intro r r1 e h; simp [discardUtil] at h
  | succ fuel ih =>
    intro r r1 e h
    rw [discardUtil_succ] at h
    by_cases hs : r.size < flags.length
    · simp only [hs, if_true, Option.some.injEq, Prod.mk.injEq] at h
      exact ⟨0, by simp [← h.1]⟩
    · by_cases h1 : r.unread.length < flags.length
      · simp only [hs, h1, if_true, if_false, Option.some.injEq, Prod.mk.injEq] at h
        exact ⟨0, by simp [← h.1]⟩
      · by_cases hm : r.unread.take flags.length = flags
        · simp only [hs, h1, hm, if_true, if_false, Option.some.injEq, Prod.mk.injEq] at h
          exact ⟨0, by simp [← h.1]⟩
        · simp only [hs, h1, hm, if_false] at h
          obtain ⟨k, hk⟩ := ih _ _ _ h
          exact ⟨k + 1, by simpa [List.drop_drop] using hk⟩

theorem discardUtil_no_match (flags : List Byte) (hne : flags ≠ []) (fuel : Nat) :
    ∀ r : Reader ε, flags.length ≤ r.size → ¬ flags <:+: r.unread → r.unread.length < fuel →
      discardUtil flags fuel r
        = some ({ r with unread := r.unread.drop (r.unread.length + 1 - flags.length) },
            some r.err) := by
  have hpos : 0 < flags.length := List.length_pos.mpr hne
  induction fuel with
  | zero => intro r _ _ h; omega
  | succ fuel ih =>
    intro r hsize hno hfuel
    rw [discardUtil_succ]
    have hs : ¬ r.size < flags.length := by omega
    by_cases h1 : r.unread.length < flags.length
    · have hk : r.unread.length + 1 - flags.length = 0 := by omega
      simp [hs, h1, hk]
    · have hm : ¬ r.unread.take flags.length = flags := fun hm =>
        hno ((take_eq_iff_isPrefix flags r.unread).mp hm).isInfix
      simp only [hs, h1, hm, if_false]
      cases hu : r.unread with
      | nil => rw [hu] at h1; exact absurd hpos h1
      | cons a t =>
        have hno1 : ¬ flags <:+: t := fun h => hno (by
          rw [hu, List.infix_cons_iff]; exact Or.inr h)
        have hfuel1 : t.length < fuel := by
          rw [hu] at hfuel; simpa using hfuel
        have := ih { r with unread := t } hsize hno1 hfuel1
        simp only [List.drop_succ_cons, List.drop_zero]
        rw [this]
        have hle : flags.length ≤ t.length + 1 := by
          rw [hu] at h1; simpa using Nat.le_of_not_lt h1
        have hk : (a :: t).length + 1 - flags.length = (t.length + 1 - flags.length) + 1 := by
          simp only [List.length_cons]; omega
        rw [hk, List.drop_succ_cons]

/-- C11: allowed more iterations than there are unread bytes, `discardUtilAny`
discards the longest prefix of the unread bytes without a member of the set: with
a member among them it returns no error and stands on the first one; without, it
consumes every byte and returns the source's error. -/
theorem discardUtilAny_spec (flags : List Byte) (fuel : Nat) (r : Reader ε)
    (hfuel : r.unread.length < fuel) :
    discardUtilAny flags fuel r =
      if ∃ x ∈ r.unread, x ∈ flags then
        some ({ r with unread := r.unread.dropWhile (fun x => decide (x ∉ flags)) }, none)
      else some ({ r with unread := [] }, some r.err) := by
  have h := discardUtilAny_eq flags r.unread r fuel rfl hfuel
  by_cases hex : ∃ x ∈ r.unread, x ∈ flags
  · rw [if_pos hex]; rw [if_pos hex] at h; exact h
  · rw [if_neg hex]; rw [if_neg hex] at h
    have hnil : r.unread.dropWhile (fun x => decide (x ∉ flags)) = [] := by
      rw [List.dropWhile_eq_nil_iff]
      intro x hx
      simpa using fun hf => hex ⟨x, hx, hf⟩
    rw [hnil] at h; exact h

/-- C12: allowed more iterations than there are unread bytes, `discardUtilNot`
discards the longest prefix of the unread bytes made of members of the set: with
a non-member among them it returns no error and stands on the first one; without,
it consumes every byte and returns the source's error. -/
theorem discardUtilNot_spec (flags : List Byte) (fuel : Nat) (r : Reader ε)
    (hfuel : r.unread.length < fuel) :
    discardUtilNot flags fuel r =
      if ∃ x ∈ r.unread, x ∉ flags then
        some ({ r with unread := r.unread.dropWhile (fun x => decide (x ∈ flags)) }, none)
      else some ({ r with unread := [] }, some r.err) := by
  have h := discardUtilNot_eq flags r.unread r fuel rfl hfuel
  by_cases hex : ∃ x ∈ r.unread, x ∉ flags
  · rw [if_pos hex]; rw [if_pos hex] at h; exact h
  · rw [if_neg hex]; rw [if_neg hex] at h
    have hnil : r.unread.dropWhile (fun x => decide (x ∈ flags)) = [] := by
      rw [List.dropWhile_eq_nil_iff]
      intro x hx
      by_contra hf
      exact hex ⟨x, hx, by simpa using hf⟩
    rw [hnil] at h; exact h

/-- C13 (amended): with an empty set `discardUtilNot` discards nothing; it returns
without error on a source with an unread byte, and with the source's error on a
source without one. -/
theorem discardUtilNot_empty_set (fuel : Nat) (r : Reader ε) :
    discardUtilNot [] (fuel + 1) r = some (r, if r.unread = [] then some r.err else none) := by
  cases hu : r.unread with
  | nil => simp [discardUtilNot_nil [] fuel r hu]
  | cons x t => simp [discardUtilNot_cons [] fuel r x t hu]

/-- C14: each scanner leaves as unread bytes a suffix of the bytes that were
unread at the call, whether it returns an error or not. -/
theorem scanners_monotone (flags : List Byte) (fuel : Nat) (r : Reader ε)
    (hfuel : r.unread.length < fuel) :
    (startsWith r flags).1.unread <:+ r.unread ∧
    (∃ r1 e, discardUtil flags fuel r = some (r1, e) ∧ r1.unread <:+ r.unread) ∧
    (∃ r1 e, discardUtilAny flags fuel r = some (r1, e) ∧ r1.unread <:+ r.unread) ∧
    (∃ r1 e, discardUtilNot flags fuel r = some (r1, e) ∧ r1.unread <:+ r.unread) := by
  refine ⟨?_, ?_, ?_, ?_⟩
  · rw [startsWith_eq]
    split
    · exact List.suffix_refl _
    · split <;> exact List.suffix_refl _
  · obtain ⟨r1, e, h, _, _⟩ := discardUtil_total_aux flags fuel r hfuel
    obtain ⟨k, rfl⟩ := discardUtil_drop flags fuel r r1 e h
    exact ⟨_, e, h, List.drop_suffix k _⟩
  · exact ⟨_, _, discardUtilAny_eq flags r.unread r fuel rfl hfuel, List.dropWhile_suffix _⟩
  · exact ⟨_, _, discardUtilNot_eq flags r.unread r fuel rfl hfuel, List.dropWhile_suffix _⟩

/-- C20 (amended): for a non-empty pattern of length `m`, no longer than the
reader's buffer, that occurs nowhere in the `n` unread bytes, `discardUtil`
returns the source's error having discarded `n + 1 - m` bytes (none when
`n < m`), leaving `min n (m - 1)` bytes unread. -/
theorem discardUtil_leaves_tail (flags : List Byte) (fuel : Nat) (r : Reader ε)
    (hne : flags ≠ []) (hsize : flags.length ≤ r.size) (hno : ¬ flags <:+: r.unread)
    (hfuel : r.unread.length < fuel) :
    discardUtil flags fuel r
      = some ({ r with unread := r.unread.drop (r.unread.length + 1 - flags.length) },
          some r.err) ∧
    (r.unread.drop (r.unread.length + 1 - flags.length)).length
      = min r.unread.length (flags.length - 1) := by
  refine ⟨discardUtil_no_match flags hne fuel r hsize hno hfuel, ?_⟩
  have hpos : 0 < flags.length := List.length_pos.mpr hne
  rw [List.length_drop]
  omega

end ScanSet

theorem discardUtilAny_spec_witness :
    discardUtilAny [0x0D, 0x0A] 7 (source [0x41, 0x42, 0x43, 0x00, 0x0D, 0x0A])
      = some (source [0x0D, 0x0A], none) ∧
    discardUtilAny [0x0D, 0x0A] 4 (source [0x41, 0x42, 0x43]) = some (source [], some "EOF") :=
  ⟨(discardUtilAny_spec [0x0D, 0x0A] 7 (source [0x41, 0x42, 0x43, 0x00, 0x0D, 0x0A])
      (by decide)).trans (by decide),
    (discardUtilAny_spec [0x0D, 0x0A] 4 (source [0x41, 0x42, 0x43]) (by decide)).trans
      (by decide)⟩

theorem discardUtilNot_spec_witness :
    discardUtilNot [0x20, 0x09] 5 (source [0x20, 0x20, 0x09, 0x41])
      = some (source [0x41], none) ∧
    discardUtilNot [0x20, 0x09] 4 (source [0x20, 0x09, 0x20]) = some (source [], some "EOF") :=
  ⟨(discardUtilNot_spec [0x20, 0x09] 5 (source [0x20, 0x20, 0x09, 0x41]) (by decide)).trans
      (by decide),
    (discardUtilNot_spec [0x20, 0x09] 4 (source [0x20, 0x09, 0x20]) (by decide)).trans
      (by decide)⟩

/-- C13 (as stated) fails: on a source with no unread bytes `discardUtilNot` with an
empty set returns the source's error, `Peek(1)` coming before the look at the set. -/
theorem discardUtilNot_empty_set_counterexample :
    discardUtilNot [] 1 (source []) = some (source [], some "EOF") ∧
    discardUtilNot [] 5 (source []) = some (source [], some "EOF") :=
  ⟨by decide, by decide⟩

theorem scanners_monotone_witness :
    (startsWith (source [0x41, 0x0D, 0x0A]) [0x0D, 0x0A]).1.unread <:+ [0x41, 0x0D, 0x0A] ∧
    (∃ r1 e, discardUtil [0x0D, 0x0A] 4 (source [0x41, 0x0D, 0x0A]) = some (r1, e) ∧
      r1.unread <:+ [0x41, 0x0D, 0x0A]) ∧
    (∃ r1 e, discardUtilAny [0x0D, 0x0A] 4 (source [0x41, 0x0D, 0x0A]) = some (r1, e) ∧
      r1.unread <:+ [0x41, 0x0D, 0x0A]) ∧
    (∃ r1 e, discardUtilNot [0x0D, 0x0A] 4 (source [0x41, 0x0D, 0x0A]) = some (r1, e) ∧
      r1.unread <:+ [0x41, 0x0D, 0x0A]) :=
  scanners_monotone [0x0D, 0x0A] 4 (source [0x41, 0x0D, 0x0A]) (by decide)

theorem discardUtil_leaves_tail_witness :
    discardUtil [0x0D, 0x0A] 4 (source [0x41, 0x0D, 0x42]) = some (source [0x42], some "EOF") ∧
    ([0x41, 0x0D, 0x42].drop (3 + 1 - 2)).length = min 3 (2 - 1) :=
  discardUtil_leaves_tail [0x0D, 0x0A] 4 (source [0x41, 0x0D, 0x42]) (by decide) (by decide)
    (by decide) (by decide)

/-- C20 (as stated) fails: on a reader with a 16-byte buffer, a 17-byte pattern
that occurs nowhere in the 20 unread bytes makes `discardUtil` return
`ErrBufferFull` with nothing discarded, not the `20 + 1 - 17 = 4` bytes of the claim. -/
theorem discardUtil_leaves_tail_counterexample :
    discardUtil (List.replicate 17 0x41) 21 (smallSource (List.replicate 20 0x42))
      = some (smallSource (List.replicate 20 0x42), some "bufio: buffer full") ∧
    ¬ List.replicate 17 0x41 <:+: (smallSource (List.replicate 20 0x42)).unread ∧
    (smallSource (List.replicate 20 0x42)).unread.length + 1 - (List.replicate 17 0x41).length
      = 4 :=
  ⟨by decide, by decide, by decide⟩

/-! ## Further properties of the codec -/

section Codec

variable {σ ε : Type}

theorem Buffer.advance_suffix (b : Buffer) (k : Nat) :
    (Buffer.mk b.buf (b.off + k)).Bytes <:+ b.Bytes := by
  rw [Buffer.Bytes_advance]
  exact List.drop_suffix k _

theorem decodeStep_ref_ret (b : Buffer) (s : σ) (u : σ → List Byte → σ × Option ε) (sz : σ → Int)
    (hsz : ∀ s1, 0 ≤ sz s1) :
    ∃ k err, decodeStep (.ref s u sz) b
      = .ret (.ref (u s b.Bytes).1 u sz, ⟨b.buf, b.off + k⟩, err) := by
  cases h : (u s b.Bytes).2 with
  | some err => exact ⟨0, some err, by rw [decodeStep_error b s u sz err h]; rfl⟩
  | none => exact ⟨_, none, decodeStep_ok b s u sz h (hsz _)⟩

theorem decodeStep_val_ret (b : Buffer) (s : σ) (u : σ → List Byte → σ × Option ε) (sz : σ → Int)
    (hsz : ∀ s1, 0 ≤ sz s1) :
    ∃ k err, decodeStep (.val s u sz) b
      = .ret (.val (u s b.Bytes).1 u sz, ⟨b.buf, b.off + k⟩, err) := by
  cases h : (u s b.Bytes).2 with
  | some err =>
    exact ⟨0, some err, by simp [decodeStep, UnmarshalSizer.UnmarshalBinary, h]⟩
  | none =>
    exact ⟨min (sz (u s b.Bytes).1).toNat b.Len, none, by
      simp [decodeStep, UnmarshalSizer.UnmarshalBinary, UnmarshalSizer.Size, h,
        Buffer.Next_of_nonneg b _ (hsz _)]⟩

theorem Unmarshals_advance (ts : List (UnmarshalSizer σ ε)) :
    ∀ b : Buffer, (∀ t ∈ ts, t.sizeNonneg) → (∀ t ∈ ts, t.byValue = false) →
      ∃ ts1 k err, Unmarshals b ts = .ret (⟨b.buf, b.off + k⟩, ts1, err) := by
  induction ts with
  | nil => intro b _ _; exact ⟨[], 0, none, by simp [Unmarshals]⟩
  | cons e rest ih =>
    intro b h hv
    have hrest : ∀ t ∈ rest, t.sizeNonneg := fun t ht => h t (List.mem_cons_of_mem _ ht)
    have hvrest : ∀ t ∈ rest, t.byValue = false := fun t ht => hv t (List.mem_cons_of_mem _ ht)
    by_cases hlen : b.Len = 0
    · exact ⟨e :: rest, 0, none, by rw [Unmarshals_empty b _ hlen]; rfl⟩
    · cases hab : e.absent with
      | true =>
        obtain ⟨ts1, k, err, hk⟩ := ih b hrest hvrest
        exact ⟨e :: ts1, k, err, by rw [Unmarshals_absent b e rest hlen hab, hk]; rfl⟩
      | false =>
        cases e with
        | nil => simp [UnmarshalSizer.absent] at hab
        | nilRef u sz => simp [UnmarshalSizer.absent] at hab
        | ref s u sz =>
          have hsz : ∀ s1, 0 ≤ sz s1 := h _ (List.mem_cons_self _ _)
          obtain ⟨k, err, hd⟩ := decodeStep_ref_ret b s u sz hsz
          rw [Unmarshals_ref b s u sz rest hlen, hd]
          cases err with
          | some err1 => exact ⟨_, k, some err1, rfl⟩
          | none =>
            obtain ⟨ts1, k1, err1, hk⟩ := ih ⟨b.buf, b.off + k⟩ hrest hvrest
            refine ⟨.ref (u s b.Bytes).1 u sz :: ts1, k + k1, err1, ?_⟩
            simp only [hk, Unmarshals.keep, Nat.add_assoc]
        | val s u sz =>
          have := hv (.val s u sz) (List.mem_cons_self _ _)
          simp [UnmarshalSizer.byValue] at this

theorem Unmarshals_advance_or_panic (ts : List (UnmarshalSizer σ ε)) :
    ∀ b : Buffer, (∀ t ∈ ts, t.sizeNonneg) →
      (∃ ts1 k err, Unmarshals b ts = .ret (⟨b.buf, b.off + k⟩, ts1, err)) ∨
      (∃ pre t post pre1 k, ts = pre ++ t :: post ∧ t.byValue = true ∧
        Unmarshals b pre = .ret (⟨b.buf, b.off + k⟩, pre1, none) ∧
        Unmarshals b ts = .panic "reflect: call of reflect.Value.IsNil on struct Value") := by
  induction ts with
  | nil => intro b _; exact Or.inl ⟨[], 0, none, by simp [Unmarshals]⟩
  | cons e rest ih =>
    intro b h
    have hrest : ∀ t ∈ rest, t.sizeNonneg := fun t ht => h t (List.mem_cons_of_mem _ ht)
    by_cases hlen : b.Len = 0
    · exact Or.inl ⟨e :: rest, 0, none, by rw [Unmarshals_empty b _ hlen]; rfl⟩
    · cases hab : e.absent with
      | true =>
        rcases ih b hrest with ⟨ts1, k, err, hk⟩ | ⟨pre, t, post, pre1, k, hts, ht, hpre, hp⟩
        · exact Or.inl ⟨e :: ts1, k, err, by
            rw [Unmarshals_absent b e rest hlen hab, hk]; rfl⟩
        · refine Or.inr ⟨e :: pre, t, post, e :: pre1, k, by rw [hts]; rfl, ht, ?_, ?_⟩
          · rw [Unmarshals_absent b e pre hlen hab, hpre]; rfl
          · rw [Unmarshals_absent b e rest hlen hab, hp]; rfl
      | false =>
        cases e with
        | nil => simp [UnmarshalSizer.absent] at hab
        | nilRef u sz => simp [UnmarshalSizer.absent] at hab
        | ref s u sz =>
          have hsz : ∀ s1, 0 ≤ sz s1 := h _ (List.mem_cons_self _ _)
          obtain ⟨k, err, hd⟩ := decodeStep_ref_ret b s u sz hsz
          cases err with
          | some err1 =>
            exact Or.inl ⟨_, k, some err1, by rw [Unmarshals_ref b s u sz rest hlen, hd]⟩
          | none =>
            rcases ih ⟨b.buf, b.off + k⟩ hrest with
              ⟨ts1, k1, err1, hk⟩ | ⟨pre, t, post, pre1, k1, hts, ht, hpre, hp⟩
            · refine Or.inl ⟨.ref (u s b.Bytes).1 u sz :: ts1, k + k1, err1, ?_⟩
              rw [Unmarshals_ref b s u sz rest hlen, hd]
              simp only [hk, Unmarshals.keep, Nat.add_assoc]
            · refine Or.inr ⟨.ref s u sz :: pre, t, post, .ref (u s b.Bytes).1 u sz :: pre1,
                k + k1, by rw [hts]; rfl, ht, ?_, ?_⟩
              · rw [Unmarshals_ref b s u sz pre hlen, hd]
                simp only [hpre, Unmarshals.keep, Nat.add_assoc]
              · rw [Unmarshals_ref b s u sz rest hlen, hd]
                simp only [hp, Unmarshals.keep]
        | val s u sz =>
          exact Or.inr ⟨[], .val s u sz, rest, [], 0, rfl, rfl, by simp [Unmarshals],
            Unmarshals_val b s u sz rest hlen⟩

theorem Unmarshals.present_keep_absent (e : UnmarshalSizer σ ε)
    (x : Exec (Buffer × List (UnmarshalSizer σ ε) × Option ε)) (h : e.absent = true) :
    Unmarshals.present (Unmarshals.keep e x) = Unmarshals.present x := by
  cases x with
  | panic msg => rfl
  | ret a =>
    obtain ⟨b, ts, err⟩ := a
    simp [Unmarshals.present, Unmarshals.keep, h]

theorem Unmarshals.present_keep_ref (e : UnmarshalSizer σ ε)
    (x : Exec (Buffer × List (UnmarshalSizer σ ε) × Option ε)) (h : e.absent = false) :
    Unmarshals.present (Unmarshals.keep e x) = Unmarshals.keep e (Unmarshals.present x) := by
  cases x with
  | panic msg => rfl
  | ret a =>
    obtain ⟨b, ts, err⟩ := a
    simp [Unmarshals.present, Unmarshals.keep, h]

theorem decodeStep_ref_present (b b1 : Buffer) (s : σ) (u : σ → List Byte → σ × Option ε)
    (sz : σ → Int) (e1 : UnmarshalSizer σ ε) (err : Option ε)
    (h : decodeStep (.ref s u sz) b = .ret (e1, b1, err)) : e1.absent = false := by
  simp only [decodeStep, UnmarshalSizer.UnmarshalBinary, UnmarshalSizer.Size] at h
  split at h
  · simp at h
  · rename_i e2 err2 heq
    simp only [Exec.ret.injEq, Prod.mk.injEq] at heq h
    obtain ⟨rfl, _⟩ := heq
    obtain ⟨rfl, _⟩ := h
    rfl
  · rename_i e2 heq
    simp only [Exec.ret.injEq, Prod.mk.injEq] at heq
    obtain ⟨rfl, _⟩ := heq
    split at h
    · simp at h
    · split at h
      · simp at h
      · simp only [Exec.ret.injEq, Prod.mk.injEq] at h
        obtain ⟨rfl, _⟩ := h
        rfl

theorem Unmarshals_filter (ts : List (UnmarshalSizer σ ε)) :
    ∀ b : Buffer, Unmarshals b (ts.filter fun e => !e.absent)
      = Unmarshals.present (Unmarshals b ts) := by
  induction ts with
  | nil => intro b; simp [Unmarshals, Unmarshals.present]
  | cons e rest ih =>
    intro b
    by_cases hlen : b.Len = 0
    · rw [Unmarshals_empty b _ hlen, Unmarshals_empty b _ hlen]; rfl
    · cases hab : e.absent with
      | true =>
        rw [Unmarshals_absent b e rest hlen hab, Unmarshals.present_keep_absent e _ hab, ← ih b]
        simp [hab]
      | false =>
        have hf : ((e :: rest).filter fun e => !e.absent) = e :: rest.filter fun e => !e.absent := by
          simp [hab]
        rw [hf]
        cases e with
        | nil => simp [UnmarshalSizer.absent] at hab
        | nilRef u sz => simp [UnmarshalSizer.absent] at hab
        | ref s u sz =>
          rw [Unmarshals_ref b s u sz _ hlen, Unmarshals_ref b s u sz rest hlen]
          cases hd : decodeStep (UnmarshalSizer.ref s u sz) b with
          | panic msg => rfl
          | ret a =>
            obtain ⟨e1, b1, err⟩ := a
            have he1 := decodeStep_ref_present b b1 s u sz e1 err hd
            cases err with
            | some err1 => simp [Unmarshals.present, he1]
            | none =>
              simp only []
              rw [Unmarshals.present_keep_ref e1 _ he1, ih b1]
        | val s u sz =>
          rw [Unmarshals_val b s u sz _ hlen, Unmarshals_val b s u sz rest hlen]
          rfl

theorem Unmarshals_eq_decodeMany (ts : List (UnmarshalSizer σ ε)) :
    ∀ b : Buffer, (∀ t ∈ ts, t.byValue = false) → Unmarshals b ts = decodeMany b ts := by
  induction ts with
  | nil => intro b _; rfl
  | cons e rest ih =>
    intro b hv
    have hvrest : ∀ t ∈ rest, t.byValue = false := fun t ht => hv t (List.mem_cons_of_mem _ ht)
    cases e with
    | nil =>
      simp [Unmarshals, decodeMany, UnmarshalSizer.isNilInterface, UnmarshalSizer.absent,
        ih _ hvrest]
    | nilRef u sz =>
      simp [Unmarshals, decodeMany, UnmarshalSizer.isNilInterface, UnmarshalSizer.IsNil,
        UnmarshalSizer.absent, ih _ hvrest]
    | ref s u sz =>
      simp only [Unmarshals, decodeMany, UnmarshalSizer.isNilInterface, UnmarshalSizer.IsNil,
        UnmarshalSizer.absent, Unmarshal, ih _ hvrest]
      rfl
    | val s u sz =>
      have := hv (.val s u sz) (List.mem_cons_self _ _)
      simp [UnmarshalSizer.byValue] at this

end Codec


theorem toByte_random (x : Int) (hx : 0 ≤ x) :
    toByte (0x0f + x.tmod (256 - 0x0f - 0x0f)) = (0x0f + x.toNat % 226 : Nat) := by
  obtain ⟨n, rfl⟩ := Int.eq_ofNat_of_zero_le hx
  have h1 : (n : Int).tmod (256 - 0x0f - 0x0f) = ((n % 226 : Nat) : Int) := by
    rw [Int.tmod_eq_emod hx (by decide)]
    omega
  have h2 : ((0x0f : Int) + ((n % 226 : Nat) : Int)) % 256 = ((0x0f + n % 226 : Nat) : Int) := by
    omega
  unfold toByte
  rw [h1, h2, Int.toNat_ofNat, Int.toNat_ofNat]

theorem RandomFill.loop_length (random : Nat → Int) (b : List Byte) :
    ∀ i, (RandomFill.loop random i b).length = b.length := by
  induction b with
  | nil => intro i; rfl
  | cons x rest ih => intro i; simp [RandomFill.loop, ih]

theorem RandomFill.loop_get (random : Nat → Int) (h : ∀ k, 0 ≤ random k) (b : List Byte) :
    ∀ i j, j < b.length →
      (RandomFill.loop random i b)[j]? = some (0x0f + (random (i + j)).toNat % 226 : Nat) := by
  induction b with
  | nil => intro i j hj; simp at hj
  | cons x rest ih =>
    intro i j hj
    cases j with
    | zero =>
      simp only [RandomFill.loop, List.getElem?_cons_zero, Nat.add_zero]
      rw [toByte_random _ (h i)]
    | succ j =>
      have := ih (i + 1) j (by simpa using hj)
      have heq : i + 1 + j = i + (j + 1) := by omega
      rw [heq] at this
      simp only [RandomFill.loop, List.getElem?_cons_succ, this]

theorem RandomFill.loop_range (random : Nat → Int) (h : ∀ k, 0 ≤ random k) (b : List Byte) :
    ∀ i, ∀ x : Nat, x ∈ RandomFill.loop random i b → 0x0f ≤ x ∧ x ≤ 0xf0 := by
  induction b with
  | nil => intro i x hx; simp [RandomFill.loop] at hx
  | cons y rest ih =>
    intro i x hx
    simp only [RandomFill.loop, List.mem_cons] at hx
    rcases hx with rfl | hx
    · rw [toByte_random _ (h i)]
      omega
    · exact ih (i + 1) x hx

section CodecClaims

variable {σ ε : Type}

/-- C15: with targets whose `Size()` is never negative, mis-reported or not,
`Unmarshal` returns, with or without an error, and so does `Unmarshals` on targets
that are absent or held by reference; they leave the contents of the buffer alone
and its cursor at or after where it was, the unread bytes afterwards being a
suffix of the unread bytes before. On any targets `Unmarshals` either returns in
this way or panics in `reflect.Value.IsNil` on reaching a target of struct kind,
the buffer then being as the targets before it left it, a suffix as well. -/
theorem decode_never_rewinds (b : Buffer) (s : σ) (u : σ → List Byte → σ × Option ε)
    (sz : σ → Int) (ts : List (UnmarshalSizer σ ε))
    (hsz : ∀ s1, 0 ≤ sz s1) (hts : ∀ t ∈ ts, t.sizeNonneg) :
    (∃ t1 b1 err, Unmarshal (.ref s u sz) (some b) = .ret (t1, b1, err) ∧
      b1.buf = b.buf ∧ b.off ≤ b1.off ∧ b1.Bytes <:+ b.Bytes) ∧
    (∃ t1 b1 err, Unmarshal (.val s u sz) (some b) = .ret (t1, b1, err) ∧
      b1.buf = b.buf ∧ b.off ≤ b1.off ∧ b1.Bytes <:+ b.Bytes) ∧
    ((∀ t ∈ ts, t.byValue = false) →
      ∃ b1 ts1 err, Unmarshals b ts = .ret (b1, ts1, err) ∧
        b1.buf = b.buf ∧ b.off ≤ b1.off ∧ b1.Bytes <:+ b.Bytes) ∧
    ((∃ b1 ts1 err, Unmarshals b ts = .ret (b1, ts1, err) ∧
        b1.buf = b.buf ∧ b.off ≤ b1.off ∧ b1.Bytes <:+ b.Bytes) ∨
      (∃ pre t post b1 pre1, ts = pre ++ t :: post ∧ t.byValue = true ∧
        Unmarshals b pre = .ret (b1, pre1, none) ∧
        b1.buf = b.buf ∧ b.off ≤ b1.off ∧ b1.Bytes <:+ b.Bytes ∧
        Unmarshals b ts = .panic "reflect: call of reflect.Value.IsNil on struct Value")) := by
  refine ⟨?_, ?_, ?_, ?_⟩
  · obtain ⟨k, err, hd⟩ := decodeStep_ref_ret b s u sz hsz
    refine ⟨.ref (u s b.Bytes).1 u sz, ⟨b.buf, b.off + k⟩, err, ?_, rfl,
      Nat.le_add_right _ k, Buffer.advance_suffix b k⟩
    simp [Unmarshal, UnmarshalSizer.isNilInterface, hd]
  · obtain ⟨k, err, hd⟩ := decodeStep_val_ret b s u sz hsz
    refine ⟨.val (u s b.Bytes).1 u sz, ⟨b.buf, b.off + k⟩, err, ?_, rfl,
      Nat.le_add_right _ k, Buffer.advance_suffix b k⟩
    simp [Unmarshal, UnmarshalSizer.isNilInterface, hd]
  · intro hv
    obtain ⟨ts1, k, err, hk⟩ := Unmarshals_advance ts b hts hv
    exact ⟨⟨b.buf, b.off + k⟩, ts1, err, hk, rfl, Nat.le_add_right _ k,
      Buffer.advance_suffix b k⟩
  · rcases Unmarshals_advance_or_panic ts b hts with
      ⟨ts1, k, err, hk⟩ | ⟨pre, t, post, pre1, k, hsplit, ht, hpre, hp⟩
    · exact Or.inl ⟨⟨b.buf, b.off + k⟩, ts1, err, hk, rfl, Nat.le_add_right _ k,
        Buffer.advance_suffix b k⟩
    · exact Or.inr ⟨pre, t, post, ⟨b.buf, b.off + k⟩, pre1, hsplit, ht, hpre, rfl,
        Nat.le_add_right _ k, Buffer.advance_suffix b k, hp⟩

/-- C16: `Unmarshals` on the list without its absent targets gives the error, the
buffer and the non-absent targets that `Unmarshals` on the whole list gives. -/
theorem Unmarshals_skips_absent (b : Buffer) (ts : List (UnmarshalSizer σ ε)) :
    Unmarshals b (ts.filter fun e => !e.absent) = Unmarshals.present (Unmarshals b ts) :=
  Unmarshals_filter ts b

/-- C17: `Marshal` panics on a nil buffer and on the nil interface, and on a
present value, held by reference or not, it returns the serialization error with the buffer unchanged or
appends the value's bytes; but a wrapped nil reference passes the test `o == nil`:
its `MarshalBinary` runs on the nil receiver and, when that call returns bytes,
`Marshal` appends them instead of panicking. -/
theorem Marshal_wrapped_nil_not_rejected :
    (∀ o : Marshaler σ ε, Marshal o none = .panic "should not be nil.") ∧
    (∀ b : Buffer, Marshal (Marshaler.nil : Marshaler σ ε) (some b)
      = .panic "should not be nil.") ∧
    (∀ (b : Buffer) (s : σ) (m : σ → Except ε (List Byte)),
      Marshal (.ref s m) (some b) =
        match m s with
        | .ok vb => .ret (⟨b.buf ++ vb, b.off⟩, none)
        | .error err => .ret (b, some err)) ∧
    (∀ (b : Buffer) (s : σ) (m : σ → Except ε (List Byte)),
      Marshal (.val s m) (some b) =
        match m s with
        | .ok vb => .ret (⟨b.buf ++ vb, b.off⟩, none)
        | .error err => .ret (b, some err)) ∧
    Marshal nilValue (some ⟨[0x01], 0⟩)
      = .panic "invalid memory address or nil pointer dereference" ∧
    Marshal (tolerantNilValue [0x05]) (some ⟨[0x01], 0⟩) = .ret (⟨[0x01, 0x05], 0⟩, none) := by
  refine ⟨fun o => rfl, fun b => rfl, ?_, ?_, rfl, rfl⟩
  · intro b s m
    cases h : m s <;>
      simp [Marshal, Marshaler.isNilInterface, Marshaler.MarshalBinary, Buffer.Write, h]
  · intro b s m
    cases h : m s <;>
      simp [Marshal, Marshaler.isNilInterface, Marshaler.MarshalBinary, Buffer.Write, h]

/-- C18: on targets that are absent or held by reference, `Unmarshals` gives the
error, buffer and targets of the reference loop `decodeMany` built from
`Unmarshal`. On a present target of struct kind `Unmarshals` panics in
`reflect.Value.IsNil`, while the reference loop decodes it with `Unmarshal`. -/
theorem Unmarshals_refines_decodeMany :
    (∀ (b : Buffer) (ts : List (UnmarshalSizer σ ε)), (∀ t ∈ ts, t.byValue = false) →
      Unmarshals b ts = decodeMany b ts) ∧
    Unmarshals ⟨[1, 2, 3], 0⟩ [fixedTarget 1 [], structTarget 2 []]
      = .panic "reflect: call of reflect.Value.IsNil on struct Value" ∧
    decodeMany ⟨[1, 2, 3], 0⟩ [fixedTarget 1 [], structTarget 2 []]
      = .ret (⟨[1, 2, 3], 3⟩, [fixedTarget 1 [1], structTarget 2 [2, 3]], none) ∧
    Unmarshal (structTarget 2 []) (some ⟨[1, 2, 3], 1⟩)
      = .ret (structTarget 2 [2, 3], ⟨[1, 2, 3], 3⟩, none) :=
  ⟨fun b ts hv => Unmarshals_eq_decodeMany ts b hv, rfl, rfl, rfl⟩

end CodecClaims

/-- C19: when the generator returns non-negative integers, `RandomFill` keeps the
length of the slice and sets its `i`-th byte to `0x0f + (x mod 226)`, `x` being
the `i`-th integer drawn: a value between `0x0f` and `0xf0` that the conversion
to `byte` leaves as it is. -/
theorem RandomFill_range (random : Nat → Int) (b : List Byte) (h : ∀ k, 0 ≤ random k) :
    (RandomFill random b).length = b.length ∧
    (∀ x : Nat, x ∈ RandomFill random b → 0x0f ≤ x ∧ x ≤ 0xf0) ∧
    (∀ i, i < b.length →
      (RandomFill random b)[i]? = some (0x0f + (random i).toNat % 226 : Nat)) := by
  refine ⟨RandomFill.loop_length random b 0, RandomFill.loop_range random h b 0, ?_⟩
  intro i hi
  simpa [RandomFill] using RandomFill.loop_get random h b 0 i hi

theorem decode_never_rewinds_witness :
    (∃ t1 b1 err, Unmarshal (greedyTarget 5 []) (some ⟨[1, 2], 1⟩) = .ret (t1, b1, err) ∧
      b1.buf = [1, 2] ∧ 1 ≤ b1.off ∧ b1.Bytes <:+ (Buffer.mk [1, 2] 1).Bytes) ∧
    (∃ b1 ts1 err,
      Unmarshals ⟨[1, 2], 1⟩ [nilTarget, greedyTarget 5 [], fixedTarget 2 []]
        = .ret (b1, ts1, err) ∧
      b1.buf = [1, 2] ∧ 1 ≤ b1.off ∧ b1.Bytes <:+ (Buffer.mk [1, 2] 1).Bytes) :=
  have h := decode_never_rewinds ⟨[1, 2], 1⟩ ([] : List Byte)
    (fun _ data => (data, (none : Option String))) (fun _ => (5 : Int))
    [nilTarget, greedyTarget 5 [], fixedTarget 2 []] (fun _ => by show (0 : Int) ≤ 5; decide)
    (by
      intro t ht
      simp only [List.mem_cons, List.mem_singleton, List.not_mem_nil, or_false] at ht
      rcases ht with rfl | rfl | rfl
      · intro n hn; simp [nilTarget] at hn
      · intro _; show (0 : Int) ≤ 5; decide
      · intro _; exact Int.ofNat_nonneg _)
  ⟨h.1, h.2.2.1 (by
    intro t ht
    simp only [List.mem_cons, List.mem_singleton, List.not_mem_nil, or_false] at ht
    rcases ht with rfl | rfl | rfl <;> rfl)⟩

theorem Unmarshals_refines_decodeMany_witness :
    Unmarshals ⟨[1, 2, 3], 0⟩ [nilTarget, fixedTarget 1 [], .nil, fixedTarget 2 []]
      = decodeMany ⟨[1, 2, 3], 0⟩ [nilTarget, fixedTarget 1 [], .nil, fixedTarget 2 []] :=
  (@Unmarshals_refines_decodeMany (List Byte) String).1 ⟨[1, 2, 3], 0⟩
    [nilTarget, fixedTarget 1 [], .nil, fixedTarget 2 []]
    (by
      intro t ht
      simp only [List.mem_cons, List.mem_singleton, List.not_mem_nil, or_false] at ht
      rcases ht with rfl | rfl | rfl | rfl <;> rfl)

theorem RandomFill_range_witness :
    (RandomFill sampleRandom [0, 0, 0]).length = 3 ∧
    (∀ x : Nat, x ∈ RandomFill sampleRandom [0, 0, 0] → 0x0f ≤ x ∧ x ≤ 0xf0) ∧
    (∀ i, i < 3 →
      (RandomFill sampleRandom [0, 0, 0])[i]? =
        some (0x0f + (sampleRandom i).toNat % 226 : Nat)) :=
  RandomFill_range sampleRandom [0, 0, 0] (by intro k; unfold sampleRandom; omega)

end Oryx
